import Mathlib

/-!
Verification development for the online EM mixture-of-experts learner of
this repository (`EM` and its helpers, implemented in the file embedded
here as `src/unnamed/part_002`, with configuration constants from
`src/params.h` and the class layout from `src/src/algorithms/em.h`).

Numeric values held in C++ `double`s are modelled as rationals `ℚ`; the
transcendental Gaussian density `gausspdf` (from `common.h`, which is not
under `src/`) is abstracted as an explicit function parameter `gpdf`,
since no claim depends on its exact value.  Statistical helpers that are
not part of the claimed behaviour (the random linear-regression solvers
and the randomized `find_linear_subset` search) are likewise passed in as
explicit function parameters, so every claimed bookkeeping property is
proved for all possible numeric outcomes.  C++ `assert` failures are
modelled by returning `none` from an `Option`-valued function.
-/

namespace SoarEM

/-! ## Configuration constants (src/params.h) -/

/-- `#define PNOISE 0.0001` (src/params.h): probability that any instance is noise. -/
def PNOISE : ℚ := mkRat 1 10000

/-- Unexplained scaling constant `#define EPSILON 0.001` (src/params.h). -/
def EPSILON : ℚ := mkRat 1 1000

/-- `#define MEASURE_VAR 1.0e-8` (src/params.h): measurement variance. -/
def MEASURE_VAR : ℚ := mkRat 1 100000000

/-- `#define MODEL_ERROR_THRESH 1e-5` (src/params.h). -/
def MODEL_ERROR_THRESH : ℚ := mkRat 1 100000

/-- `#define NEW_MODE_THRESH 200` (src/params.h): noise instances needed before
EM tries to create a new mode. -/
def NEW_MODE_THRESH : ℕ := 200

/-! ## Scene signatures (scene_sig, methods in part_003) -/

/-- One entry of a scene signature: object id, display name, type tag, start
offset into the flattened feature vector, and the ordered property names
(`scene_sig::entry`; serialized fields id, name, type, start, target, props).
The `target` field of an entry is never consulted by the EM core and is
omitted. -/
structure SigEntry where
  id : ℕ
  name : String
  type : ℕ
  start : ℕ
  props : List String
deriving DecidableEq

/-- A scene signature is an ordered sequence of entries (`scene_sig`). -/
abbrev SceneSig := List SigEntry

/-- `scene_sig::dim()` (part_003): total width of the flattened feature
vector, the sum of the property-list sizes of all entries. -/
def sigDim (s : SceneSig) : ℕ := (s.map (fun e => e.props.length)).sum

/-- `scene_sig::add(e)` (part_003): append an entry, rebasing its `start`
offset to the current total dimension. -/
def sigAdd (s : SceneSig) (e : SigEntry) : SceneSig :=
  s ++ [{ e with start := sigDim s }]

/-- Modelled from the spec: `scene_sig::operator==` is declared in
`scene_sig.h`, which is not under `src/`.  Per the spec, two signatures are
equal iff their entry sequences agree on name, type and property lists. -/
def sigEq (a b : SceneSig) : Bool :=
  a.length = b.length &&
  (List.zip a b).all (fun p =>
    p.1.name = p.2.name && p.1.type = p.2.type && decide (p.1.props = p.2.props))

/-! ## Relations (relation_table; enough structure for extend_relations) -/

/-- A relation: a set of tuples whose first component is the time stamp
(`relation` from relation.h, modelled as a duplicate-free list). -/
abbrev Relation := List (ℕ × List ℕ)

/-- A relation table: a map from predicate name to relation
(`relation_table`), modelled as an association list. -/
abbrev RelTbl := List (String × Relation)

/-- `relation::add`: insert a (time, tuple) pair if not already present. -/
def relAdd (r : Relation) (t : ℕ) (tup : List ℕ) : Relation :=
  if (t, tup) ∈ r then r else r ++ [(t, tup)]

/-- `relation::drop_first`: the set of tuples with the time column removed
(duplicates collapsed). -/
def dropFirst (r : Relation) : List (List ℕ) :=
  (r.map Prod.snd).dedup

/-! ## Observations and modes (EM::em_data / EM::mode_info, part_002) -/

/-- One observation (`EM::em_data` in part_002, `train_data` in em.h):
feature vector `x`, scalar output `y` (the sole component of the C++
1-vector), target-object index, signature-bucket index, posterior vector
`mode_prob`, dirty bits `prob_stale`, MAP mode `map_mode`, and the object
mapping fixed at the last MAP assignment. -/
structure EmData where
  x : List ℚ
  y : ℚ
  target : ℕ
  sig_index : ℕ
  mode_prob : List ℚ
  prob_stale : List Bool
  map_mode : ℕ
  obj_map : List ℕ
deriving DecidableEq

/-- Default observation (`em_data()` constructor). -/
def dData : EmData :=
  { x := [], y := 0, target := 0, sig_index := 0,
    mode_prob := [], prob_stale := [], map_mode := 0, obj_map := [] }

/-- Pairwise classifiers are opaque to every claim; only NULL versus
allocated matters (`EM::classifier*`), so a slot is an `Option Unit`. -/
abbrev ClsSlot := Option Unit

/-- One mode (`EM::mode_info`): the noise flag, the refit dirty flags, the
member set, the reduced model signature, the linear model (single
coefficient column plus intercept), the noise mode's Y-sorted member set,
the member relation, and the pairwise classifier vector.  The FOIL clause
vectors (`obj_clauses`) are owned by the classification subsystem, which no
claim inspects, and are omitted. -/
structure ModeInfo where
  noise : Bool
  stale : Bool
  new_fit : Bool
  classifier_stale : Bool
  members : Finset ℕ
  sig : SceneSig
  lin_coefs : List ℚ
  lin_inter : ℚ
  sorted_ys : List (ℚ × ℕ)
  member_rel : Finset (ℕ × ℕ)
  classifiers : List ClsSlot
deriving DecidableEq

/-- The freshly constructed noise mode
(`mode_info(true, data, sigs)` with `classifiers.resize(1, NULL)`,
from `EM::EM()`). -/
def noiseMode : ModeInfo :=
  { noise := true, stale := false, new_fit := true, classifier_stale := true,
    members := ∅, sig := [], lin_coefs := [], lin_inter := 0,
    sorted_ys := [], member_rel := ∅, classifiers := [none] }

/-- A freshly constructed non-noise mode (`mode_info(false, data, sigs)`). -/
def freshMode : ModeInfo :=
  { noise := false, stale := true, new_fit := true, classifier_stale := true,
    members := ∅, sig := [], lin_coefs := [], lin_inter := 0,
    sorted_ys := [], member_rel := ∅, classifiers := [] }

/-- Default mode used for out-of-range list reads. -/
def dMode : ModeInfo := noiseMode

/-- Ordered insertion into the noise mode's Y-sorted set
(`std::set<std::pair<double,int>>::insert`): lexicographic order,
duplicates ignored. -/
def insertSortedYs (p : ℚ × ℕ) : List (ℚ × ℕ) → List (ℚ × ℕ)
  | [] => [p]
  | q :: rest =>
    if p.1 < q.1 ∨ (p.1 = q.1 ∧ p.2 < q.2) then p :: q :: rest
    else if p = q then q :: rest
    else q :: insertSortedYs p rest

/-- `std::set::erase` on the Y-sorted set. -/
def eraseSortedYs (p : ℚ × ℕ) (l : List (ℚ × ℕ)) : List (ℚ × ℕ) :=
  l.filter (fun q => q ≠ p)

/-- Signature bucket (`EM::sig_info`): the signature, the indices of the
observations carrying it, and the fallback LWR model.  The LWR model (class
`LWR` from lwr.h, not under `src/`) stores the training pairs it was given;
its k-NN predictor is abstracted where needed. -/
structure SigInfo where
  sig : SceneSig
  members : List ℕ
  lwr : List (List ℚ × ℚ)
deriving DecidableEq

/-- The whole learner state (the private fields of class `EM`). -/
structure EMState where
  rel_tbl : RelTbl
  data : List EmData
  sigs : List SigInfo
  modes : List ModeInfo
  ndata : ℕ
  nmodes : ℕ
  check_after : ℕ
  noise_by_sig : List (ℕ × Finset ℕ)
  obj_maps : List ((ℕ × ℕ) × List ℕ)
deriving DecidableEq

/-- The `EM()` constructor state. -/
def initEM : EMState :=
  { rel_tbl := [], data := [], sigs := [], modes := [noiseMode],
    ndata := 0, nmodes := 1, check_after := NEW_MODE_THRESH,
    noise_by_sig := [], obj_maps := [] }

/-! ## Small helpers shared by the operations -/

/-- Look up the set bound to key `k` in a `map<int, set<int>>`;
`operator[]` semantics give the empty set for an absent key. -/
def nbsGet (m : List (ℕ × Finset ℕ)) (k : ℕ) : Finset ℕ :=
  match m.find? (fun p => p.1 = k) with
  | some p => p.2
  | none => ∅

/-- Replace (or create) the binding of key `k` in a `map<int, set<int>>`. -/
def nbsSet (m : List (ℕ × Finset ℕ)) (k : ℕ) (v : Finset ℕ) : List (ℕ × Finset ℕ) :=
  if m.any (fun p => p.1 = k) then
    m.map (fun p => if p.1 = k then (k, v) else p)
  else m ++ [(k, v)]

/-- Look up an object-map table entry (`obj_map_table::find`). -/
def omFind (om : List ((ℕ × ℕ) × List ℕ)) (k : ℕ × ℕ) : Option (List ℕ) :=
  match om.find? (fun p => p.1 = k) with
  | some p => some p.2
  | none => none

/-- Store an object-map table entry (`obj_maps[key] = value`). -/
def omSet (om : List ((ℕ × ℕ) × List ℕ)) (k : ℕ × ℕ) (v : List ℕ) :
    List ((ℕ × ℕ) × List ℕ) :=
  if om.any (fun p => p.1 = k) then
    om.map (fun p => if p.1 = k then (k, v) else p)
  else om ++ [(k, v)]

/-- Modelled from the spec: `argmax` (common.h helper, not under `src/`)
returns the index of a maximum element of `mode_prob`; modelled as the
first index attaining the maximum. -/
def argmax (l : List ℚ) : ℕ :=
  (List.range l.length).foldl (fun b k => if l.getD b 0 < l.getD k 0 then k else b) 0

/-- `x.segment(start, len)` on a flattened feature vector. -/
def segment (x : List ℚ) (start len : ℕ) : List ℚ :=
  (x.drop start).take len

/-- Row-vector times single-column coefficient matrix (`xc * lin_coefs`). -/
def dotProd (a b : List ℚ) : ℚ :=
  ((List.zip a b).map (fun p => p.1 * p.2)).sum

/-- `remove_from_vector(inds, v)` (part_002): delete the elements whose
positions appear in the ascending, duplicate-free index list `inds`,
compacting the rest in order. -/
def remove_from_vector {α : Type} (inds : List ℕ) (v : List α) : List α :=
  (v.enum.filter (fun p => decide (p.1 ∉ inds))).map Prod.snd

/-- `std::vector::resize(n, fill)`: truncate or pad with `fill` to length `n`. -/
def resizeList {α : Type} (l : List α) (n : ℕ) (fill : α) : List α :=
  if n ≤ l.length then l.take n else l ++ List.replicate (n - l.length) fill

/-- Default signature entry for out-of-range reads. -/
def dEntry : SigEntry := { id := 0, name := "", type := 0, start := 0, props := [] }

/-- Default signature bucket for out-of-range reads. -/
def dSig : SigInfo := { sig := [], members := [], lwr := [] }

/-- Update position `n` of a list in place, like `v[n] = f(v[n])`. -/
def updList {α : Type} : List α → ℕ → (α → α) → List α
  | [], _, _ => []
  | a :: l, 0, f => f a :: l
  | a :: l, n + 1, f => a :: updList l n f

/-! ## calc_prob (EM::mode_info::calc_prob, part_002 lines 1194-1275) -/

/-- The candidate table built by `calc_prob`: `possibles[0]` holds only the
target, and `possibles[i]` for `i ≥ 1` holds every object index of the data
signature whose type matches model-signature position `i`, excluding the
target. -/
def possibles (target : ℕ) (xsig msig : SceneSig) : List (List ℕ) :=
  [target] :: (List.range' 1 (msig.length - 1)).map (fun i =>
    (List.range xsig.length).filter (fun j =>
      (xsig.getD j dEntry).type = (msig.getD i dEntry).type ∧ j ≠ target))

/-- `multi_combination_generator` with `allow_repeat = false` (part_002 lines
116-180): enumerates every choice of one element per slot, skipping any
combination with a repeated element.  The odometer enumeration order is
irrelevant to the callers (they fold a maximum over all combinations), so the
output is modelled as the sections of the slot table filtered for
duplicate-freedom. -/
def multi_combinations (elems : List (List ℕ)) : List (List ℕ) :=
  (List.sections elems).filter (fun c => c.Nodup)

/-- The in-loop assertion `assert(sig[i].props.size() == l)` of `calc_prob`:
each assigned object's property block must have the width the model
signature expects at that position. -/
def checkSizes (msig xsig : SceneSig) (assign : List ℕ) : Bool :=
  (List.range assign.length).all (fun i =>
    (msig.getD i dEntry).props.length = (xsig.getD (assign.getD i 0) dEntry).props.length)

/-- Reassemble the feature sub-vector for an assignment: gather every
assigned object's property block, in model-signature order
(`xc.segment(s, l) = x.segment(e.start, l)` in `calc_prob`, and the same
gather in `mode_info::predict` and `mode_info::update_fits`). -/
def gatherX (xsig : SceneSig) (x : List ℚ) (assign : List ℕ) : List ℚ :=
  (assign.map (fun a =>
    segment x (xsig.getD a dEntry).start (xsig.getD a dEntry).props.length)).flatten

/-- The assignment loop of `calc_prob`: score every combination, keeping the
strict-improvement best starting from `best_prob = -1.0`; a combination with
a mismatched block width trips the in-loop assertion, and the final
`assert(best_prob >= 0.0)` trips when nothing (nonnegative) was scored.
An assertion failure is `none`. -/
def scoreLoop (gpdf : ℚ → ℚ → ℚ → ℚ) (msig xsig : SceneSig) (coefs : List ℚ)
    (inter : ℚ) (x : List ℚ) (y : ℚ) :
    List (List ℕ) → ℚ × List ℕ × ℚ → Option (ℚ × List ℕ × ℚ)
  | [], best => if 0 ≤ best.1 then some best else none
  | a :: rest, best =>
    if checkSizes msig xsig a then
      let py := dotProd (gatherX xsig x a) coefs + inter
      let p := (1 - EPSILON) * gpdf y py MEASURE_VAR
      scoreLoop gpdf msig xsig coefs inter x y rest
        (if best.1 < p then (p, a, y - py) else best)
    else none

/-- `EM::mode_info::calc_prob(target, xsig, x, y, best_assign, best_error)`.
The result carries the returned probability together with the values written
to the two out-parameters (`none` components mean the out-parameter was left
untouched, as happens for the noise mode).  A C++ assertion failure is
`none`.  The Gaussian density `gausspdf` (common.h, not under `src/`) is the
parameter `gpdf`; the weight `w` is the constant `1.0` exactly as in the
source. -/
def calc_prob (gpdf : ℚ → ℚ → ℚ → ℚ) (m : ModeInfo) (target : ℕ)
    (xsig : SceneSig) (x : List ℚ) (y : ℚ) :
    Option (ℚ × Option (List ℕ) × Option ℚ) :=
  if m.noise then some (PNOISE, none, none)
  else if m.sig.isEmpty then
    if m.lin_coefs.isEmpty then
      some ((1 - EPSILON) * gpdf y m.lin_inter MEASURE_VAR,
            some [], some (y - m.lin_inter))
    else none
  else
    match scoreLoop gpdf m.sig xsig m.lin_coefs m.lin_inter x y
        (multi_combinations (possibles target xsig m.sig)) (-1, [], 0) with
    | some best => some (best.1, some best.2.1, some best.2.2)
    | none => none

/-! ## Mode prediction and membership (mode_info methods, part_002) -/

/-- `EM::mode_info::predict(dsig, x, obj_map, y)`: a constant model (empty
coefficients) predicts the intercept; otherwise gather the feature
sub-vector through the object map and apply the linear model.  (The source
asserts `obj_map.size() == sig.size()`; callers establish it.) -/
def modePredict (m : ModeInfo) (dsig : SceneSig) (x : List ℚ) (obj_map : List ℕ) : ℚ :=
  if m.lin_coefs.isEmpty then m.lin_inter
  else dotProd (gatherX dsig x obj_map) m.lin_coefs + m.lin_inter

/-- `EM::mode_info::add_example(i)`: insert into `members` and the member
relation, mark the classifier stale; a noise mode also enters the Y-sorted
set, a fitted mode marks itself stale when the new example's residual
exceeds `MODEL_ERROR_THRESH`. -/
def add_example (data : List EmData) (sigs : List SigInfo) (m : ModeInfo) (i : ℕ) :
    ModeInfo :=
  let d := data.getD i dData
  let dsig := (sigs.getD d.sig_index dSig).sig
  let m1 := { m with members := insert i m.members, classifier_stale := true,
                     member_rel := insert (i, (dsig.getD d.target dEntry).id) m.member_rel }
  if m1.noise then { m1 with sorted_ys := insertSortedYs (d.y, i) m1.sorted_ys }
  else
    let py := modePredict m1 dsig d.x d.obj_map
    if MODEL_ERROR_THRESH < |py - d.y| then { m1 with stale := true } else m1

/-- `EM::mode_info::del_example(i)`: the reverse bookkeeping. -/
def del_example (data : List EmData) (sigs : List SigInfo) (m : ModeInfo) (i : ℕ) :
    ModeInfo :=
  let d := data.getD i dData
  let dsig := (sigs.getD d.sig_index dSig).sig
  let m1 := { m with classifier_stale := true,
                     member_rel := m.member_rel.erase (i, (dsig.getD d.target dEntry).id),
                     members := m.members.erase i }
  if m1.noise then { m1 with sorted_ys := eraseSortedYs (d.y, i) m1.sorted_ys } else m1

/-! ## learn (EM::learn, part_002 lines 470-510) -/

/-- `EM::extend_relations(add, time)`: merge a single-time relation snapshot
into the cumulative table, copying unseen predicates wholesale and re-adding
the timestamp-projected tuples of known predicates under the new time. -/
def extend_relations (tbl : RelTbl) (add : RelTbl) (time : ℕ) : RelTbl :=
  add.foldl (fun acc nr =>
    if acc.any (fun p => p.1 = nr.1) then
      acc.map (fun p =>
        if p.1 = nr.1 then
          (p.1, (dropFirst nr.2).foldl (fun r2 tup => relAdd r2 time tup) p.2)
        else p)
    else acc ++ [nr]) tbl

/-- First signature bucket whose stored signature equals `sig`. -/
def findSigIdx (sigs : List SigInfo) (sig : SceneSig) : Option ℕ :=
  (List.range sigs.length).find? (fun i => sigEq (sigs.getD i dSig).sig sig)

/-- `EM::learn(target, sig, rels, x, y)`: register (or look up) the signature
bucket, append the new observation with posterior `[PNOISE, 0, …]`, MAP mode
0 and all-but-noise dirty bits, train the bucket's LWR, add the observation
to the noise mode and `noise_by_sig`, merge the relation snapshot, and bump
the observation count. -/
def learn (s : EMState) (target : ℕ) (sig : SceneSig) (rels : RelTbl)
    (x : List ℚ) (y : ℚ) : EMState :=
  let (sigs0, sig_index) :=
    match findSigIdx s.sigs sig with
    | some i => (s.sigs, i)
    | none => (s.sigs ++ [({ sig := sig, members := [], lwr := [] } : SigInfo)], s.sigs.length)
  let sigs := updList sigs0 sig_index (fun si =>
    { si with members := si.members ++ [s.ndata], lwr := si.lwr ++ [(x, y)] })
  let dinfo : EmData :=
    { x := x, y := y, target := target, sig_index := sig_index,
      map_mode := 0,
      mode_prob := (List.replicate s.nmodes (0 : ℚ)).set 0 PNOISE,
      prob_stale := (List.replicate s.nmodes true).set 0 false,
      obj_map := [] }
  let data := s.data ++ [dinfo]
  let modes := updList s.modes 0 (fun m => add_example data sigs m s.ndata)
  let nbs := nbsSet s.noise_by_sig sig_index
    (insert s.ndata (nbsGet s.noise_by_sig sig_index))
  { s with sigs := sigs, data := data, modes := modes, noise_by_sig := nbs,
           rel_tbl := extend_relations s.rel_tbl rels s.ndata,
           ndata := s.ndata + 1 }

/-! ## estep (EM::estep, part_002 lines 512-561) -/

/-- The per-observation working copy of the E-step inner loop: the
observation's posterior vector and dirty bits, the local `stale` flag, and
the object-map table. -/
structure InnerAcc where
  mode_prob : List ℚ
  prob_stale : List Bool
  stale : Bool
  om : List ((ℕ × ℕ) × List ℕ)
deriving DecidableEq

/-- The E-step inner loop over the non-noise mode indices `j`: a mode that is
neither dirty for this observation nor freshly refit is skipped; otherwise
its probability is recomputed by `calc_prob` (a `calc_prob` assertion
failure aborts), the best assignment is stored into the object-map table,
the posterior entry and dirty bit are written back, and the local `stale`
flag is raised when the recomputed value dethrones (or weakens) the current
MAP mode. -/
def estepInner (gpdf : ℚ → ℚ → ℚ → ℚ) (modes : List ModeInfo) (dsig : SceneSig)
    (tgt : ℕ) (x : List ℚ) (yv : ℚ) (mapm i : ℕ) :
    List ℕ → InnerAcc → Option InnerAcc
  | [], acc => some acc
  | j :: js, acc =>
    if ¬ acc.prob_stale.getD j false ∧ ¬ (modes.getD j dMode).new_fit then
      estepInner gpdf modes dsig tgt x yv mapm i js acc
    else
      match calc_prob gpdf (modes.getD j dMode) tgt dsig x yv with
      | none => none
      | some (now, asg, _) =>
        let prev := acc.mode_prob.getD mapm 0
        let acc1 : InnerAcc :=
          { mode_prob := acc.mode_prob.set j now,
            prob_stale := acc.prob_stale.set j false,
            stale := acc.stale ∨ (mapm = j ∧ now < prev) ∨ (mapm ≠ j ∧ prev < now),
            om := match asg with
                  | some a => omSet acc.om (j, i) a
                  | none => acc.om }
        estepInner gpdf modes dsig tgt x yv mapm i js acc1

/-- One observation of the E-step: run the inner loop, and if the `stale`
flag was raised recompute the MAP mode as `argmax(mode_prob)`; on a change,
move the observation between member sets (and `noise_by_sig`), updating its
stored object map from the table when available. -/
def estepObs (gpdf : ℚ → ℚ → ℚ → ℚ) (sigs : List SigInfo) (nmodes : ℕ)
    (st : List EmData × List ModeInfo × List (ℕ × Finset ℕ) × List ((ℕ × ℕ) × List ℕ))
    (i : ℕ) :
    Option (List EmData × List ModeInfo × List (ℕ × Finset ℕ) × List ((ℕ × ℕ) × List ℕ)) :=
  let (data, modes, nbs, om) := st
  let d := data.getD i dData
  let dsig := (sigs.getD d.sig_index dSig).sig
  match estepInner gpdf modes dsig d.target d.x d.y d.map_mode i
      (List.range' 1 (nmodes - 1)) ⟨d.mode_prob, d.prob_stale, false, om⟩ with
  | none => none
  | some acc =>
    let d1 := { d with mode_prob := acc.mode_prob, prob_stale := acc.prob_stale }
    if acc.stale then
      let prev := d.map_mode
      let now := argmax acc.mode_prob
      if now ≠ prev then
        let d2 := { d1 with map_mode := now,
                            obj_map := match omFind acc.om (now, i) with
                                       | some a => a
                                       | none => d1.obj_map }
        let data2 := data.set i d2
        let modes2 := updList modes prev (fun m => del_example data2 sigs m i)
        let nbs2 := if prev = 0 then
            nbsSet nbs d.sig_index ((nbsGet nbs d.sig_index).erase i)
          else nbs
        let modes3 := updList modes2 now (fun m => add_example data2 sigs m i)
        let nbs3 := if now = 0 then
            nbsSet nbs2 d.sig_index (insert i (nbsGet nbs2 d.sig_index))
          else nbs2
        some (data2, modes3, nbs3, acc.om)
      else some (data.set i d1, modes, nbs, acc.om)
    else some (data.set i d1, modes, nbs, acc.om)

/-- The E-step outer loop over observation indices. -/
def estepLoop (gpdf : ℚ → ℚ → ℚ → ℚ) (sigs : List SigInfo) (nmodes : ℕ) :
    List ℕ →
    (List EmData × List ModeInfo × List (ℕ × Finset ℕ) × List ((ℕ × ℕ) × List ℕ)) →
    Option (List EmData × List ModeInfo × List (ℕ × Finset ℕ) × List ((ℕ × ℕ) × List ℕ))
  | [], st => some st
  | i :: is, st =>
    match estepObs gpdf sigs nmodes st i with
    | none => none
    | some st1 => estepLoop gpdf sigs nmodes is st1

/-- `EM::estep()`: process every observation, then clear the `new_fit` flag
of every non-noise mode.  `none` models a `calc_prob` assertion failure. -/
def estep (gpdf : ℚ → ℚ → ℚ → ℚ) (s : EMState) : Option EMState :=
  match estepLoop gpdf s.sigs s.nmodes (List.range s.ndata)
      (s.data, s.modes, s.noise_by_sig, s.obj_maps) with
  | none => none
  | some (data, modes, nbs, om) =>
    some { s with data := data, noise_by_sig := nbs, obj_maps := om,
                  modes := modes.enum.map (fun p =>
                    if 1 ≤ p.1 then { p.2 with new_fit := false } else p.2) }

/-! ## mstep (EM::mstep and mode_info::update_fits, part_002) -/

/-- `EM::mode_info::update_fits()`: a mode that is not stale reports no
change; a stale mode refits its linear model over its members' gathered
feature rows (`lr` abstracts `linreg_d(FORWARD, …)`), clears `stale` and
raises `new_fit`. -/
def update_fits (lr : List (List ℚ × ℚ) → List ℚ × ℚ) (data : List EmData)
    (sigs : List SigInfo) (m : ModeInfo) : ModeInfo × Bool :=
  if ¬ m.stale then (m, false)
  else
    let rows := (m.members.sort (· ≤ ·)).map (fun i =>
      let d := data.getD i dData
      (gatherX (sigs.getD d.sig_index dSig).sig d.x d.obj_map, d.y))
    let cb := lr rows
    ({ m with lin_coefs := cb.1, lin_inter := cb.2, stale := false, new_fit := true },
     true)

/-- `EM::mstep()`: `changed = changed || modes[i]->update_fits()` over the
non-noise modes — faithfully including the C++ short-circuit, under which no
further mode is refit once one reported a change. -/
def mstep (lr : List (List ℚ × ℚ) → List ℚ × ℚ) (s : EMState) : EMState × Bool :=
  let r := (List.range' 1 (s.nmodes - 1)).foldl
    (fun (acc : List ModeInfo × Bool) j =>
      if acc.2 then acc
      else
        let mc := update_fits lr s.data s.sigs (acc.1.getD j dMode)
        (acc.1.set j mc.1, mc.2))
    (s.modes, false)
  ({ s with modes := r.1 }, r.2)

/-! ## remove_modes (EM::remove_modes, part_002 lines 833-877) -/

/-- The non-noise mode indices `remove_modes` deletes: membership at most 2. -/
def removedList (s : EMState) : List ℕ :=
  (List.range' 1 (s.nmodes - 1)).filter (fun j =>
    (s.modes.getD j dMode).members.card ≤ 2)

/-- One iteration of the compaction loop of `remove_modes`: a mode covering
more than 2 data points is kept at the next free slot `i`; a smaller one is
recorded as removed with index-map entry 0. -/
def removeStep (s : EMState) (acc : List ℕ × List ℕ × List ModeInfo × ℕ) (j : ℕ) :
    List ℕ × List ℕ × List ModeInfo × ℕ :=
  let (im, rem, surv, i) := acc
  if 2 < (s.modes.getD j dMode).members.card then
    (im ++ [i], rem, surv ++ [s.modes.getD j dMode], i + 1)
  else
    (im ++ [0], rem ++ [j], surv, i)

/-- `EM::remove_modes()`: delete every non-noise mode covering at most 2
data points, compact the survivors (the noise mode is always kept), compact
every survivor's classifier vector and every observation's `mode_prob`, and
remap `map_mode` through the index map (removed modes map to 0).  The
per-observation `prob_stale` vector is left untouched, exactly as in the
source. -/
def remove_modes (s : EMState) : EMState × Bool :=
  if s.nmodes = 1 then (s, false)
  else
    let fold := (List.range' 1 (s.nmodes - 1)).foldl (removeStep s)
      ([0], [], [s.modes.getD 0 dMode], 1)
    let im := fold.1
    let rem := fold.2.1
    let surv := fold.2.2.1
    let nmodes1 := fold.2.2.2
    if rem.isEmpty then (s, false)
    else
      let modes := surv.map (fun m =>
        { m with classifiers := remove_from_vector rem m.classifiers })
      let data := s.data.map (fun d =>
        { d with map_mode := im.getD d.map_mode 0,
                 mode_prob := remove_from_vector rem d.mode_prob })
      ({ s with modes := modes, data := data, nmodes := nmodes1 }, true)

/-! ## unify_or_add_mode (part_002 lines 678-764) and init_fit (629-676) -/

/-- `EM::mode_info::init_fit(data_inds)`: regress (`lr` abstracts
`linreg_d(FORWARD, …)`) over the listed observations' raw rows, keep the
target plus every other object owning a nonzero coefficient block, rebuild
the reduced model signature from those objects (rebasing offsets), gather
the kept coefficient blocks, and raise `new_fit`. -/
def init_fit (lr : List (List ℚ × ℚ) → List ℚ × ℚ) (data : List EmData)
    (sigs : List SigInfo) (m : ModeInfo) (data_inds : List ℕ) : ModeInfo :=
  let d0 := data.getD (data_inds.getD 0 0) dData
  let dsig := (sigs.getD d0.sig_index dSig).sig
  let target := d0.target
  let rows := data_inds.map (fun i => ((data.getD i dData).x, (data.getD i dData).y))
  let cb := lr rows
  let relevant_objs := target ::
    ((List.range dsig.length).filter (fun i =>
      i ≠ target ∧
      (List.range (dsig.getD i dEntry).props.length).any (fun k =>
        cb.1.getD ((dsig.getD i dEntry).start + k) 0 ≠ 0)))
  { m with
    sig := relevant_objs.foldl (fun acc i => sigAdd acc (dsig.getD i dEntry)) [],
    lin_coefs := (relevant_objs.map (fun i =>
      segment cb.1 (dsig.getD i dEntry).start (dsig.getD i dEntry).props.length)).flatten,
    lin_inter := cb.2,
    new_fit := true }

/-- `EM::mode_info::uniform_sig(sig, target)`: every member carries the given
signature bucket and target. -/
def uniform_sig (data : List EmData) (m : ModeInfo) (sigi tgt : ℕ) : Bool :=
  (m.members.sort (· ≤ ·)).all (fun i =>
    decide ((data.getD i dData).sig_index = sigi ∧ (data.getD i dData).target = tgt))

/-- The mode-registration tail of `unify_or_add_mode` (part_002 lines
747-763): push a fresh mode seeded by `init_fit` over the candidate subset,
bump `nmodes`, push one `0.0` onto every observation's `mode_prob` (and, as
in the source, nothing onto `prob_stale`), and resize every mode's
classifier vector to the new `nmodes` with NULL fill. -/
def register_new_mode (lr : List (List ℚ × ℚ) → List ℚ × ℚ) (s : EMState)
    (seed_inds : List ℕ) : EMState :=
  let new_mode := init_fit lr s.data s.sigs freshMode seed_inds
  let modes1 := s.modes ++ [new_mode]
  let nmodes1 := s.nmodes + 1
  let data := s.data.map (fun d => { d with mode_prob := d.mode_prob ++ [0] })
  let modes := modes1.map (fun m =>
    { m with classifiers := resizeList m.classifiers nmodes1 none })
  { s with modes := modes, nmodes := nmodes1, data := data }

/-- The unification loop of `unify_or_add_mode` (part_002 lines 725-745):
for each existing mode whose members all share the seed's signature bucket
and target, combine its members (in ascending order) with the seed, run
linear-subset discovery (`fl` abstracts `find_linear_subset`, returning row
positions into the combined list), and on 90% retention refit that mode via
`init_fit` over the vector `u` — allocated at the combined size and filled
only in its first `subset.size()` positions, the rest staying 0, exactly as
in the source. -/
def unifyLoop (lr : List (List ℚ × ℚ) → List ℚ × ℚ) (fl : List ℕ → List ℕ)
    (s : EMState) (seed_inds : List ℕ) (seed_sig seed_target : ℕ) :
    List ℕ → Option EMState
  | [] => none
  | j :: js =>
    let minfo := s.modes.getD j dMode
    if ¬ uniform_sig s.data minfo seed_sig seed_target then
      unifyLoop lr fl s seed_inds seed_sig seed_target js
    else
      let combined := (minfo.members.sort (· ≤ ·)) ++ seed_inds
      let subset := fl combined
      if (9 : ℚ) / 10 * combined.length ≤ subset.length then
        let u := subset.map (fun k => combined.getD k 0) ++
                 List.replicate (combined.length - subset.length) 0
        some { s with modes := updList s.modes j (fun m => init_fit lr s.data s.sigs m u) }
      else unifyLoop lr fl s seed_inds seed_sig seed_target js

/-- The decision stage of `EM::unify_or_add_mode()` (part_002 lines
714-764), entered once a candidate seed subset of noise observations has
been found: reset `check_after`, try to unify the seed with the first
matching existing mode, and otherwise register a brand-new mode.  Both
branches report a change. -/
def unify_or_add_mode (lr : List (List ℚ × ℚ) → List ℚ × ℚ)
    (fl : List ℕ → List ℕ) (s : EMState) (seed_inds : List ℕ) : EMState × Bool :=
  let s1 := { s with check_after := NEW_MODE_THRESH }
  let seed_sig := (s1.data.getD (seed_inds.getD 0 0) dData).sig_index
  let seed_target := (s1.data.getD (seed_inds.getD 0 0) dData).target
  match unifyLoop lr fl s1 seed_inds seed_sig seed_target
      (List.range' 1 (s1.nmodes - 1)) with
  | some s2 => (s2, true)
  | none => (register_new_mode lr s1 seed_inds, true)

/-! ## best_mode (EM::best_mode, part_002 lines 894-909) -/

/-- The running locals of `best_mode`: best index (`-1` initially), its
probability, and the reused `assign`/`error` locals together with the
`besterror` out-parameter (`none` = still uninitialized). -/
structure BMAcc where
  best : ℤ
  best_prob : ℚ
  assign : List ℕ
  error : Option ℚ
  besterror : Option ℚ
deriving DecidableEq

/-- The mode loop of `best_mode`: score every mode with `calc_prob`
(propagating assertion failures), taking the strictly-better mode and
snapshotting the `error` local into `besterror` at each improvement. -/
def bestModeLoop (gpdf : ℚ → ℚ → ℚ → ℚ) (modes : List ModeInfo) (tgt : ℕ)
    (sig : SceneSig) (x : List ℚ) (y : ℚ) :
    List ℕ → BMAcc → Option (ℤ × Option ℚ)
  | [], acc => some (acc.best, acc.besterror)
  | i :: is, acc =>
    match calc_prob gpdf (modes.getD i dMode) tgt sig x y with
    | none => none
    | some (p, asg, err) =>
      let assign := match asg with | some a => a | none => acc.assign
      let error := match err with | some e => some e | none => acc.error
      if acc.best = -1 ∨ acc.best_prob < p then
        bestModeLoop gpdf modes tgt sig x y is
          { best := (i : ℤ), best_prob := p, assign := assign,
            error := error, besterror := error }
      else
        bestModeLoop gpdf modes tgt sig x y is
          { acc with assign := assign, error := error }

/-- `EM::best_mode(target, sig, x, y, besterror)`: the mode whose model best
explains a hypothetical labeled point, calling `calc_prob` on every mode
(the noise mode included) without any type-compatibility pre-check. -/
def best_mode (gpdf : ℚ → ℚ → ℚ → ℚ) (s : EMState) (tgt : ℕ) (sig : SceneSig)
    (x : List ℚ) (y : ℚ) : Option (ℤ × Option ℚ) :=
  bestModeLoop gpdf s.modes tgt sig x y (List.range s.nmodes)
    { best := -1, best_prob := 0, assign := [], error := none, besterror := none }

/-! ## predict (EM::predict, part_002 lines 806-828) -/

/-- The caller's output vector as `predict` leaves it: untouched, set to
NaN, or set to a real prediction. -/
inductive YOut where
  | untouched : YOut
  | nanSet : YOut
  | val : ℚ → YOut
deriving DecidableEq

/-- `EM::predict(target, sig, rels, x, mode, y)`.  The classification
pipeline `EM::classify` (FOIL clause matching, LDA votes and the pairwise
tally) and the LWR k-NN predictor live behind the function parameters `cls`
and `lwrp`; this definition is the dispatch logic of `predict` itself: with
no data it reports failure with `y` untouched; when classification selects
the noise mode it falls back to the first matching signature bucket's LWR,
writing NaN and failing if that bucket is absent or its LWR declines;
otherwise the winning mode's model predicts through the classifier's object
map. -/
def predict (cls : EMState → ℕ → SceneSig → RelTbl → List ℚ → ℕ × List ℕ)
    (lwrp : List (List ℚ × ℚ) → List ℚ → Option ℚ)
    (s : EMState) (target : ℕ) (sig : SceneSig) (rels : RelTbl) (x : List ℚ) :
    Bool × ℕ × YOut :=
  if s.ndata = 0 then (false, 0, YOut.untouched)
  else
    let mo := cls s target sig rels x
    if mo.1 = 0 then
      match findSigIdx s.sigs sig with
      | some i =>
        match lwrp (s.sigs.getD i dSig).lwr x with
        | some v => (true, 0, YOut.val v)
        | none => (false, 0, YOut.nanSet)
      | none => (false, 0, YOut.nanSet)
    else (true, mo.1, YOut.val (modePredict (s.modes.getD mo.1 dMode) sig x mo.2))

/-! ## largest_const_subset (mode_info::largest_const_subset, lines 1362-1379) -/

/-- The scan loop of `largest_const_subset` over the Y-sorted noise set,
transcribed exactly: on a repeated Y value the index is pushed onto the
RESULT vector `subset` (not the run accumulator `s`), otherwise the run
accumulator replaces the result when longer and restarts; the final run is
never flushed.  `last` starts as NaN, which compares unequal to everything
(modelled by `none`). -/
def lcsLoop : List (ℚ × ℕ) → List ℕ → List ℕ → Option ℚ → List ℕ
  | [], subset, _, _ => subset
  | p :: rest, subset, s, last =>
    if last = some p.1 then lcsLoop rest (subset ++ [p.2]) s last
    else
      lcsLoop rest (if subset.length < s.length then s else subset) [p.2] (some p.1)

/-- `EM::mode_info::largest_const_subset(subset)` on the noise mode. -/
def largest_const_subset (m : ModeInfo) : List ℕ :=
  lcsLoop m.sorted_ys [] [] none

/-! ## Serialization (EM::serialize / EM::unserialize, lines 1127-1150) -/

/-- One record of the checkpoint stream.  The C++ `serializer` writes
fields and containers in declaration order onto a text stream; the stream
is modelled at record granularity, which the claims never look below. -/
inductive Tok where
  | num : ℕ → Tok
  | datum : EmData → Tok
  | sigrec : SceneSig → List ℕ → Tok
  | rels : RelTbl → Tok
  | moderec : Bool → Bool → Bool → Finset ℕ → SceneSig → List ClsSlot →
      Finset (ℕ × ℕ) → List (ℚ × ℕ) → List ℚ → ℚ → Tok
deriving DecidableEq

/-- `EM::serialize(os)`: `ndata`, `nmodes`, the observation vector, the
signature-bucket vector (each bucket serializes its signature and member
list — the LWR is rebuilt on load), the relation table, then each mode in
order (`stale`, `new_fit`, `classifier_stale`, `members`, `sig`,
`classifiers`, `member_rel`, `sorted_ys`, `lin_coefs`, `lin_inter`; the FOIL
`obj_clauses` are not modelled). -/
def serializeEM (s : EMState) : List Tok :=
  [Tok.num s.ndata, Tok.num s.nmodes]
  ++ (Tok.num s.data.length :: s.data.map Tok.datum)
  ++ (Tok.num s.sigs.length :: s.sigs.map (fun si => Tok.sigrec si.sig si.members))
  ++ [Tok.rels s.rel_tbl]
  ++ s.modes.map (fun m =>
      Tok.moderec m.stale m.new_fit m.classifier_stale m.members m.sig
        m.classifiers m.member_rel m.sorted_ys m.lin_coefs m.lin_inter)

/-- Read one count from the stream. -/
def parseNum : List Tok → Option (ℕ × List Tok)
  | Tok.num n :: rest => some (n, rest)
  | _ => none

/-- Read `n` observation records. -/
def parseData : ℕ → List Tok → Option (List EmData × List Tok)
  | 0, ts => some ([], ts)
  | n + 1, Tok.datum d :: rest =>
    match parseData n rest with
    | some (ds, ts) => some (d :: ds, ts)
    | none => none
  | _ + 1, _ => none

/-- Read `n` signature-bucket records (LWR empty until rebuilt). -/
def parseSigs : ℕ → List Tok → Option (List SigInfo × List Tok)
  | 0, ts => some ([], ts)
  | n + 1, Tok.sigrec sg mems :: rest =>
    match parseSigs n rest with
    | some (ss, ts) => some ({ sig := sg, members := mems, lwr := [] } :: ss, ts)
    | none => none
  | _ + 1, _ => none

/-- Read and DISCARD `n` mode records — `EM::unserialize` constructs each
`mode_info`, unserializes it from the stream, and never stores it into
`modes` (the local pointer `m` is dropped). -/
def skipModes : ℕ → List Tok → Option (List Tok)
  | 0, ts => some ts
  | n + 1, Tok.moderec _ _ _ _ _ _ _ _ _ _ :: rest => skipModes n rest
  | _ + 1, _ => none

/-- `EM::unserialize(is)` applied to a freshly constructed instance
(`fresh`): read `ndata`, `nmodes`, the observation vector (checked against
`ndata` — the source's `assert(data.size() == ndata)`), the signature
buckets and the relation table; read but drop the mode records; rebuild
every bucket's LWR from its members' stored rows.  The `modes` vector, the
`check_after` counter and the `noise_by_sig` index keep the fresh
instance's values, exactly as in the source. -/
def unserializeEM (fresh : EMState) (ts : List Tok) : Option EMState := do
  let (nd, ts) ← parseNum ts
  let (nm, ts) ← parseNum ts
  let (cnt, ts) ← parseNum ts
  let (ds, ts) ← parseData cnt ts
  if ds.length ≠ nd then none else
  let (scnt, ts) ← parseNum ts
  let (ss, ts) ← parseSigs scnt ts
  match ts with
  | Tok.rels rt :: ts =>
    let ts ← skipModes nm ts
    let _ := ts
    let ss := ss.map (fun si =>
      { si with lwr := si.members.map (fun j =>
          ((ds.getD j dData).x, (ds.getD j dData).y)) })
    some { fresh with ndata := nd, nmodes := nm, data := ds, sigs := ss, rel_tbl := rt }
  | _ => none

/-! ## State invariants and spec-side descriptions used by the claims -/

/-- Observation `i` of a state (`*data[i]`). -/
def dataOf (s : EMState) (i : ℕ) : EmData := s.data.getD i dData

/-- Mode `m` of a state (`*modes[m]`). -/
def modeOf (s : EMState) (m : ℕ) : ModeInfo := s.modes.getD m dMode

/-- Structural well-formedness tying the counters to the containers: the
observation and mode tables have lengths `ndata` and `nmodes`, the noise
mode exists, and every observation's posterior vector spans the modes with
an in-range MAP index. -/
def wf (s : EMState) : Prop :=
  s.data.length = s.ndata ∧ s.modes.length = s.nmodes ∧ 1 ≤ s.nmodes ∧
  (∀ d ∈ s.data, d.mode_prob.length = s.nmodes ∧ d.map_mode < s.nmodes)

/-- The partition invariant over the raw tables: every member index of every
mode is a live observation whose MAP mode is that mode, every live
observation sits in its MAP mode's member set, and the membership counts
over all modes sum to the observation count. -/
def pInv (data : List EmData) (modes : List ModeInfo) : Prop :=
  (∀ m, m < modes.length → ∀ i ∈ (modes.getD m dMode).members,
      i < data.length ∧ (data.getD i dData).map_mode = m) ∧
  (∀ i, i < data.length → i ∈ (modes.getD (data.getD i dData).map_mode dMode).members) ∧
  (modes.map (fun m => m.members.card)).sum = data.length

/-- The partition invariant of claim C1 on a state. -/
def partitionInv (s : EMState) : Prop := pInv s.data s.modes

/-- Posterior consistency for one observation: its MAP mode attains the
maximum of its posterior vector. -/
def attainsMax (d : EmData) : Prop :=
  ∀ k, k < d.mode_prob.length → d.mode_prob.getD k 0 ≤ d.mode_prob.getD d.map_mode 0

/-- Posterior consistency of claim C2 on a state. -/
def consistent (s : EMState) : Prop := ∀ d ∈ s.data, attainsMax d

/-- A type-compatible injective assignment as described by the spec: one
scene object per model-signature position, position 0 pinned to the target,
later positions holding distinct same-type non-target objects. -/
def validAssign (target : ℕ) (xsig msig : SceneSig) (a : List ℕ) : Prop :=
  a.length = msig.length ∧ a.getD 0 0 = target ∧
  (∀ i, i < msig.length → 1 ≤ i →
    a.getD i 0 < xsig.length ∧
    (xsig.getD (a.getD i 0) dEntry).type = (msig.getD i dEntry).type ∧
    a.getD i 0 ≠ target) ∧
  a.Nodup

/-- The score `calc_prob` gives one assignment: `(1-EPSILON)` times the
Gaussian density of `y` around the linear model's prediction on the
reassembled feature sub-vector, with variance `MEASURE_VAR`. -/
def assignScore (gpdf : ℚ → ℚ → ℚ → ℚ) (xsig : SceneSig) (coefs : List ℚ)
    (inter : ℚ) (x : List ℚ) (y : ℚ) (a : List ℕ) : ℚ :=
  (1 - EPSILON) * gpdf y (dotProd (gatherX xsig x a) coefs + inter) MEASURE_VAR

/-- The spec-side index map of `remove_modes`: a kept non-noise mode moves
to slot `1 +` (number of kept modes before it); a removed mode (and the
noise mode) maps to 0. -/
def imSpec (s : EMState) (j : ℕ) : ℕ :=
  if 1 ≤ j ∧ j < s.nmodes ∧ 2 < (modeOf s j).members.card then
    1 + ((List.range' 1 (j - 1)).filter
      (fun k => 2 < (modeOf s k).members.card)).length
  else 0

/-- The signature bucket of a candidate seed (`data[seed_inds[0]]->sig_index`). -/
def seedSigOf (s : EMState) (seed : List ℕ) : ℕ :=
  (s.data.getD (seed.getD 0 0) dData).sig_index

/-- The target of a candidate seed (`data[seed_inds[0]]->target`). -/
def seedTgtOf (s : EMState) (seed : List ℕ) : ℕ :=
  (s.data.getD (seed.getD 0 0) dData).target

/-- The combined index list `unify_or_add_mode` hands to linear-subset
discovery for mode `j`: the mode's members in ascending order, then the seed. -/
def combinedOf (s : EMState) (j : ℕ) (seed : List ℕ) : List ℕ :=
  ((modeOf s j).members.sort (· ≤ ·)) ++ seed

/-- Mode `j` accepts unification with the seed: its members all share the
seed's signature bucket and target, and linear-subset discovery over the
combined list retains at least 90% of it. -/
def unifyOk (fl : List ℕ → List ℕ) (s : EMState) (seed : List ℕ) (j : ℕ) : Prop :=
  uniform_sig s.data (modeOf s j) (seedSigOf s seed) (seedTgtOf s seed) = true ∧
  (9 : ℚ) / 10 * (combinedOf s j seed).length ≤ (fl (combinedOf s j seed)).length

/-- The index vector `u` the unification branch actually refits over: the
discovered subset mapped through the combined list, padded with zeros up to
the combined size (the source allocates `u` at `combined.size()` and fills
only the first `subset.size()` slots). -/
def paddedU (fl : List ℕ → List ℕ) (s : EMState) (seed : List ℕ) (j : ℕ) : List ℕ :=
  (fl (combinedOf s j seed)).map (fun k => (combinedOf s j seed).getD k 0) ++
  List.replicate ((combinedOf s j seed).length - (fl (combinedOf s j seed)).length) 0

/-- The noise-fallback of `predict` fails: no bucket matches the signature,
or the first matching bucket's LWR declines to predict. -/
def lwrFallbackFails (lwrp : List (List ℚ × ℚ) → List ℚ → Option ℚ)
    (s : EMState) (sig : SceneSig) (x : List ℚ) : Prop :=
  match findSigIdx s.sigs sig with
  | none => True
  | some i => lwrp (s.sigs.getD i dSig).lwr x = none

instance (s : EMState) : Decidable (wf s) := by
  unfold wf; exact inferInstance

instance (data : List EmData) (modes : List ModeInfo) : Decidable (pInv data modes) := by
  unfold pInv; exact inferInstance

instance (s : EMState) : Decidable (partitionInv s) := by
  unfold partitionInv; exact inferInstance

instance (d : EmData) : Decidable (attainsMax d) := by
  unfold attainsMax; exact inferInstance

instance (s : EMState) : Decidable (consistent s) := by
  unfold consistent; exact inferInstance

instance (target : ℕ) (xsig msig : SceneSig) (a : List ℕ) :
    Decidable (validAssign target xsig msig a) := by
  unfold validAssign; exact inferInstance

instance (fl : List ℕ → List ℕ) (s : EMState) (seed : List ℕ) (j : ℕ) :
    Decidable (unifyOk fl s seed j) := by
  unfold unifyOk; exact inferInstance

instance (lwrp : List (List ℚ × ℚ) → List ℚ → Option ℚ) (s : EMState)
    (sig : SceneSig) (x : List ℚ) : Decidable (lwrFallbackFails lwrp s sig x) := by
  unfold lwrFallbackFails
  exact match findSigIdx s.sigs sig with
  | none => isTrue trivial
  | some _ => inferInstance

/-! ## Concrete example states for counterexamples and witnesses -/

/-- A Gaussian-density stand-in that is identically zero. -/
def gpdf0 : ℚ → ℚ → ℚ → ℚ := fun _ _ _ => 0

/-- A regression stand-in: one zero coefficient, intercept = row count. -/
def lr0 : List (List ℚ × ℚ) → List ℚ × ℚ := fun rows => ([0], (rows.length : ℚ))

/-- A linear-subset-discovery stand-in that claims the first 180 rows. -/
def fl180 : List ℕ → List ℕ := fun _ => List.range 180

/-- A classification stand-in that always reports the noise mode. -/
def cls0 : EMState → ℕ → SceneSig → RelTbl → List ℚ → ℕ × List ℕ :=
  fun _ _ _ _ _ => (0, [])

/-- An LWR-prediction stand-in that always declines. -/
def lwrp0 : List (List ℚ × ℚ) → List ℚ → Option ℚ := fun _ _ => none

/-- A one-object, one-property scene signature. -/
def exSigA : SceneSig := [{ id := 1, name := "a", type := 1, start := 0, props := ["px"] }]

/-- A fitted constant-model mode (empty signature), neither stale nor
freshly fit. -/
def exM1 : ModeInfo :=
  { freshMode with
      stale := false, new_fit := false, lin_inter := 7,
      classifiers := [none, none] }

/-- An observation whose stored posterior favors mode 1 while its MAP index
is still 0 and no dirty bit is set. -/
def exD0 : EmData :=
  { x := [5], y := 3, target := 0, sig_index := 0,
    mode_prob := [PNOISE, mkRat 1 2], prob_stale := [false, false],
    map_mode := 0, obj_map := [] }

/-- A two-mode state around `exD0`, structurally well-formed. -/
def exS2 : EMState :=
  { initEM with
      data := [exD0], ndata := 1, nmodes := 2,
      sigs := [{ sig := exSigA, members := [0], lwr := [([5], 3)] }],
      modes := [{ noiseMode with
                    members := {0}, sorted_ys := [(3, 0)],
                    classifiers := [none, none] }, exM1],
      noise_by_sig := [(0, {0})] }

/-- A two-mode state whose single observation belongs to the fitted mode,
which therefore has exactly one member — small enough for `remove_modes` to
delete. -/
def exS3 : EMState :=
  { exS2 with
      data := [{ exD0 with map_mode := 1 }],
      modes := [{ noiseMode with classifiers := [none, none] },
                { exM1 with members := {0} }],
      noise_by_sig := [] }

/-- A fitted mode conditioned on two objects, the second of a type (7) that
the example scene does not offer. -/
def exM2 : ModeInfo :=
  { freshMode with
      stale := false, new_fit := false,
      sig := [{ id := 1, name := "a", type := 1, start := 0, props := ["px"] },
              { id := 2, name := "b", type := 7, start := 1, props := ["px"] }],
      lin_coefs := [1, 1], lin_inter := 0,
      classifiers := [none, none] }

/-- A state whose observation is dirty for mode `exM2` although its scene
signature has no type-7 candidate object. -/
def exS10 : EMState :=
  { exS2 with
      data := [{ exD0 with prob_stale := [false, true] }],
      modes := [{ noiseMode with
                    members := {0}, sorted_ys := [(3, 0)],
                    classifiers := [none, none] }, exM2] }

/-! ## List toolkit -/

theorem updList_length {α : Type} (l : List α) (n : ℕ) (f : α → α) :
    (updList l n f).length = l.length := by
  induction l generalizing n with
  | nil => rfl
  | cons a l ih =>
    cases n with
    | zero => rfl
    | succ n => simpa [updList] using ih n

theorem getD_updList_self {α : Type} (l : List α) (n : ℕ) (f : α → α) (d : α)
    (h : n < l.length) : (updList l n f).getD n d = f (l.getD n d) := by
  induction l generalizing n with
  | nil => simp at h
  | cons a l ih =>
    cases n with
    | zero => rfl
    | succ n =>
      simp only [updList, List.getD_cons_succ]
      exact ih n (by simpa using h)

theorem getD_updList_ne {α : Type} (l : List α) (n : ℕ) (f : α → α) (d : α)
    (k : ℕ) (h : k ≠ n) : (updList l n f).getD k d = l.getD k d := by
  induction l generalizing n k with
  | nil => rfl
  | cons a l ih =>
    cases n with
    | zero =>
      cases k with
      | zero => exact absurd rfl h
      | succ k => rfl
    | succ n =>
      cases k with
      | zero => rfl
      | succ k =>
        simp only [updList, List.getD_cons_succ]
        exact ih n k (fun hk => h (by omega))

theorem getD_set_self {α : Type} (l : List α) (n : ℕ) (a d : α)
    (h : n < l.length) : (l.set n a).getD n d = a := by
  induction l generalizing n with
  | nil => simp at h
  | cons b l ih =>
    cases n with
    | zero => rfl
    | succ n =>
      simp only [List.set_cons_succ, List.getD_cons_succ]
      exact ih n (by simpa using h)

theorem getD_set_ne {α : Type} (l : List α) (n : ℕ) (a d : α) (k : ℕ)
    (h : k ≠ n) : (l.set n a).getD k d = l.getD k d := by
  induction l generalizing n k with
  | nil => rfl
  | cons b l ih =>
    cases n with
    | zero =>
      cases k with
      | zero => exact absurd rfl h
      | succ k => rfl
    | succ n =>
      cases k with
      | zero => rfl
      | succ k =>
        simp only [List.set_cons_succ, List.getD_cons_succ]
        exact ih n k (fun hk => h (by omega))

theorem sum_map_updList {α : Type} (g : α → ℕ) (dflt : α) (l : List α)
    (n : ℕ) (f : α → α) (h : n < l.length) :
    ((updList l n f).map g).sum + g (l.getD n dflt) =
      (l.map g).sum + g (f (l.getD n dflt)) := by
  induction l generalizing n with
  | nil => simp at h
  | cons a l ih =>
    cases n with
    | zero => simp [updList]; omega
    | succ n =>
      simp only [updList, List.map_cons, List.sum_cons, List.getD_cons_succ]
      have := ih n (by simpa using h)
      omega

/-! ## argmax lemmas -/

theorem argmax_foldl_spec (l : List ℚ) (ks : List ℕ) (b : ℕ) :
    l.getD b 0 ≤ l.getD (ks.foldl (fun c k => if l.getD c 0 < l.getD k 0 then k else c) b) 0 ∧
    (∀ k ∈ ks, l.getD k 0 ≤ l.getD (ks.foldl (fun c k => if l.getD c 0 < l.getD k 0 then k else c) b) 0) ∧
    ((ks.foldl (fun c k => if l.getD c 0 < l.getD k 0 then k else c) b) = b ∨
      (ks.foldl (fun c k => if l.getD c 0 < l.getD k 0 then k else c) b) ∈ ks) := by
  induction ks generalizing b with
  | nil => exact ⟨le_refl _, by simp, Or.inl rfl⟩
  | cons k ks ih =>
    simp only [List.foldl_cons]
    rcases ih (if l.getD b 0 < l.getD k 0 then k else b) with ⟨h1, h2, h3⟩
    set b1 := if l.getD b 0 < l.getD k 0 then k else b with hb1
    have hbb1 : l.getD b 0 ≤ l.getD b1 0 := by
      rw [hb1]; split
      · exact le_of_lt (by assumption)
      · exact le_refl _
    have hkb1 : l.getD k 0 ≤ l.getD b1 0 := by
      rw [hb1]; split
      · exact le_refl _
      · exact le_of_not_lt (by assumption)
    refine ⟨le_trans hbb1 h1, ?_, ?_⟩
    · intro k' hk'
      rcases List.mem_cons.mp hk' with h | h
      · subst h; exact le_trans hkb1 h1
      · exact h2 k' h
    · rcases h3 with h | h
      · rw [h, hb1]
        split
        · exact Or.inr (List.mem_cons_self _ _)
        · exact Or.inl rfl
      · exact Or.inr (List.mem_cons_of_mem _ h)

theorem argmax_le (l : List ℚ) (k : ℕ) (h : k < l.length) :
    l.getD k 0 ≤ l.getD (argmax l) 0 := by
  have := (argmax_foldl_spec l (List.range l.length) 0).2.1
  exact this k (List.mem_range.mpr h)

theorem argmax_lt_length (l : List ℚ) (h : l ≠ []) : argmax l < l.length := by
  have h3 := (argmax_foldl_spec l (List.range l.length) 0).2.2
  rcases h3 with h3 | h3
  · rw [argmax, h3]
    exact List.length_pos.mpr h
  · exact List.mem_range.mp h3

/-! ## Member-set bookkeeping lemmas -/

theorem members_add_example (data : List EmData) (sigs : List SigInfo)
    (m : ModeInfo) (i : ℕ) : (add_example data sigs m i).members = insert i m.members := by
  unfold add_example
  dsimp only
  split
  · rfl
  · split <;> rfl

theorem members_del_example (data : List EmData) (sigs : List SigInfo)
    (m : ModeInfo) (i : ℕ) : (del_example data sigs m i).members = m.members.erase i := by
  unfold del_example
  dsimp only
  split <;> rfl

/-! ## estep structural lemmas -/

theorem set_max_lemma (v : List ℚ) (mapm j : ℕ) (now : ℚ)
    (hA : ∀ k, k < v.length → v.getD k 0 ≤ v.getD mapm 0)
    (hB : mapm = j → v.getD mapm 0 ≤ now)
    (hC : mapm ≠ j → now ≤ v.getD mapm 0) :
    ∀ k, k < v.length → (v.set j now).getD k 0 ≤ (v.set j now).getD mapm 0 := by
  intro k hk
  rcases eq_or_ne mapm j with hmj | hmj
  · rcases Nat.lt_or_ge j v.length with hjl | hjl
    · have hm2 : (v.set j now).getD mapm 0 = now := by
        rw [hmj]; exact getD_set_self _ _ _ _ hjl
      rcases eq_or_ne k j with hkj | hkj
      · rw [hkj, getD_set_self _ _ _ _ hjl, hm2]
      · rw [getD_set_ne _ _ _ _ _ hkj, hm2]
        exact le_trans (hA k hk) (hB hmj)
    · rw [List.set_eq_of_length_le hjl]
      exact hA k hk
  · have hm2 : (v.set j now).getD mapm 0 = v.getD mapm 0 :=
      getD_set_ne _ _ _ _ _ hmj
    rw [hm2]
    rcases eq_or_ne k j with hkj | hkj
    · rcases Nat.lt_or_ge j v.length with hjl | hjl
      · rw [hkj, getD_set_self _ _ _ _ hjl]
        exact hC hmj
      · rw [List.set_eq_of_length_le hjl]
        exact hA k hk
    · rw [getD_set_ne _ _ _ _ _ hkj]
      exact hA k hk

/-- The inner-loop invariant of claim C2: while the `stale` flag is down,
the current MAP index still attains the maximum of the working posterior
vector. -/
def accMax (mapm : ℕ) (acc : InnerAcc) : Prop :=
  acc.stale = false → ∀ k, k < acc.mode_prob.length →
    acc.mode_prob.getD k 0 ≤ acc.mode_prob.getD mapm 0

theorem estepInner_accMax (gpdf : ℚ → ℚ → ℚ → ℚ) (modes : List ModeInfo)
    (dsig : SceneSig) (tgt : ℕ) (x : List ℚ) (yv : ℚ) (mapm i : ℕ) :
    ∀ (js : List ℕ) (acc acc' : InnerAcc),
      estepInner gpdf modes dsig tgt x yv mapm i js acc = some acc' →
      accMax mapm acc →
      accMax mapm acc' ∧ acc'.mode_prob.length = acc.mode_prob.length := by
  intro js
  induction js with
  | nil =>
    intro acc acc' h hm
    simp only [estepInner] at h
    cases h
    exact ⟨hm, rfl⟩
  | cons j js ih =>
    intro acc acc' h hm
    simp only [estepInner] at h
    split at h
    · exact ih acc acc' h hm
    · cases hcp : calc_prob gpdf (modes.getD j dMode) tgt dsig x yv with
      | none => rw [hcp] at h; cases h
      | some v =>
        rw [hcp] at h
        obtain ⟨now, asg, err⟩ := v
        dsimp only at h
        refine (ih _ acc' h ?_).imp id (fun hl => by simpa using hl)
        intro hst k hk
        dsimp only at hst hk ⊢
        rw [decide_eq_false_iff_not, not_or, not_or] at hst
        obtain ⟨hs0', hnd1, hnd2⟩ := hst
        have hs0 : acc.stale = false := by
          cases hstale : acc.stale
          · rfl
          · exact absurd hstale hs0'
        have hmax := hm hs0
        rw [List.length_set] at hk
        exact set_max_lemma acc.mode_prob mapm j now hmax
          (fun hmj => le_of_not_lt (fun hc => hnd1 ⟨hmj, hc⟩))
          (fun hmj => le_of_not_lt (fun hc => hnd2 ⟨hmj, hc⟩)) k hk

theorem getD_mem_of_lt {α : Type} (l : List α) (n : ℕ) (d : α) (h : n < l.length) :
    l.getD n d ∈ l := by
  rw [List.getD_eq_getElem?_getD, List.getElem?_eq_getElem h]
  exact List.getElem_mem h

theorem getD_of_le {α : Type} (l : List α) (n : ℕ) (d : α) (h : l.length ≤ n) :
    l.getD n d = d := by
  rw [List.getD_eq_getElem?_getD, List.getElem?_len_le h]
  rfl

theorem attainsMax_dData : attainsMax dData := by
  intro k hk
  simp [dData] at hk

theorem estepObs_consistent (gpdf : ℚ → ℚ → ℚ → ℚ) (sigs : List SigInfo)
    (nmodes : ℕ) (data : List EmData) (modes : List ModeInfo)
    (nbs : List (ℕ × Finset ℕ)) (om : List ((ℕ × ℕ) × List ℕ))
    (i : ℕ)
    (st' : List EmData × List ModeInfo × List (ℕ × Finset ℕ) × List ((ℕ × ℕ) × List ℕ))
    (h : estepObs gpdf sigs nmodes (data, modes, nbs, om) i = some st')
    (hc : ∀ d ∈ data, attainsMax d) :
    ∀ d ∈ st'.1, attainsMax d := by
  unfold estepObs at h
  dsimp only at h
  have hattd : attainsMax (data.getD i dData) := by
    rcases Nat.lt_or_ge i data.length with hi | hi
    · exact hc _ (getD_mem_of_lt data i dData hi)
    · rw [getD_of_le data i dData hi]
      exact attainsMax_dData
  cases hInner : estepInner gpdf modes (sigs.getD (data.getD i dData).sig_index dSig).sig
      (data.getD i dData).target (data.getD i dData).x (data.getD i dData).y
      (data.getD i dData).map_mode i (List.range' 1 (nmodes - 1))
      ⟨(data.getD i dData).mode_prob, (data.getD i dData).prob_stale, false, om⟩ with
  | none => rw [hInner] at h; cases h
  | some acc =>
    rw [hInner] at h
    dsimp only at h
    have hacc := estepInner_accMax gpdf modes _ _ _ _ _ i _ _ acc hInner
      (fun _ => hattd)
    have hlen : acc.mode_prob.length = (data.getD i dData).mode_prob.length := hacc.2
    have hmem : ∀ (d1 : EmData), attainsMax d1 → ∀ d ∈ data.set i d1, attainsMax d := by
      intro d1 h1 d hd
      rcases List.mem_or_eq_of_mem_set hd with hd | hd
      · exact hc d hd
      · rw [hd]; exact h1
    split at h
    · split at h
      · -- MAP mode changed: the new index is argmax of the working posterior
        cases h
        refine hmem _ ?_
        intro k hk
        dsimp only at hk ⊢
        exact argmax_le acc.mode_prob k hk
      · -- stale but argmax unchanged
        rename_i hcond
        cases h
        refine hmem _ ?_
        intro k hk
        dsimp only at hk ⊢
        rw [← not_ne_iff.mp hcond]
        exact argmax_le acc.mode_prob k hk
    · -- stale flag never raised: the inner-loop invariant closes it
      rename_i hcond
      cases h
      refine hmem _ ?_
      intro k hk
      dsimp only at hk ⊢
      exact hacc.1 (by simpa using hcond) k hk

theorem estepLoop_consistent (gpdf : ℚ → ℚ → ℚ → ℚ) (sigs : List SigInfo)
    (nmodes : ℕ) :
    ∀ (is : List ℕ)
      (st st' : List EmData × List ModeInfo × List (ℕ × Finset ℕ) × List ((ℕ × ℕ) × List ℕ)),
      estepLoop gpdf sigs nmodes is st = some st' →
      (∀ d ∈ st.1, attainsMax d) → ∀ d ∈ st'.1, attainsMax d := by
  intro is
  induction is with
  | nil =>
    intro st st' h hc
    simp only [estepLoop] at h
    cases h
    exact hc
  | cons i is ih =>
    intro st st' h hc
    simp only [estepLoop] at h
    cases hObs : estepObs gpdf sigs nmodes st i with
    | none => rw [hObs] at h; cases h
    | some st1 =>
      rw [hObs] at h
      obtain ⟨data, modes, nbs, om⟩ := st
      exact ih st1 st' h (estepObs_consistent gpdf sigs nmodes data modes nbs om i st1 hObs hc)

/-! ## Claim C3: serialization round-trip -/

/-- Claim C3 identifies a code bug: `EM::unserialize` constructs each mode
with `new mode_info(i == 0, data, sigs)` and unserializes it from the
stream, but never stores it into `modes` (the pointer is dropped), so the
loaded instance keeps the freshly-constructed noise-only mode vector while
`nmodes` says otherwise.  Round-tripping the two-mode state `exS2` parses
cleanly, restores `ndata`/`nmodes`/`data`/`sigs`/`rel_tbl` and rebuilds the
LWRs, yet leaves `modes = [noiseMode]`: the fitted mode (and with it every
`predict` outcome that classification would route through it) is lost. -/
theorem claim_C3_code_bug :
    unserializeEM initEM (serializeEM exS2) =
      some { initEM with ndata := 1, nmodes := 2, data := exS2.data, sigs := exS2.sigs } ∧
    exS2.nmodes = 2 ∧ exS2.modes.length = 2 ∧
    (exS2.modes.getD 1 dMode).noise = false ∧
    Option.map (fun t => t.modes) (unserializeEM initEM (serializeEM exS2)) =
      some [noiseMode] ∧
    noiseMode.members = ∅ := by decide

/-! ## Claim C8: mode_prob / prob_stale parallelism -/

/-- Claim C8 identifies a code bug: `learn` creates both vectors with one
entry per mode, and `estep` indexes `prob_stale[j]` for every mode `j`, but
the mode-registration step of `unify_or_add_mode` (lines 751-753) pushes a
new entry only onto `mode_prob`, and `remove_modes` (lines 869-875) removes
entries only from `mode_prob` — `prob_stale` is never resized, so the two
vectors diverge and the next `estep` indexes `prob_stale` out of bounds. -/
theorem claim_C8_code_bug :
    (exS2.data.getD 0 dData).mode_prob.length = 2 ∧
    (exS2.data.getD 0 dData).prob_stale.length = 2 ∧
    ((learn exS2 0 exSigA [] [6] 4).data.getD 1 dData).mode_prob.length = 2 ∧
    ((learn exS2 0 exSigA [] [6] 4).data.getD 1 dData).prob_stale.length = 2 ∧
    (register_new_mode lr0 exS2 [0]).nmodes = 3 ∧
    ((register_new_mode lr0 exS2 [0]).data.getD 0 dData).mode_prob.length = 3 ∧
    ((register_new_mode lr0 exS2 [0]).data.getD 0 dData).prob_stale.length = 2 ∧
    (remove_modes exS3).1.nmodes = 1 ∧
    ((remove_modes exS3).1.data.getD 0 dData).mode_prob.length = 1 ∧
    ((remove_modes exS3).1.data.getD 0 dData).prob_stale.length = 2 := by decide

/-! ## Claim C9: largest_const_subset -/

/-- Claim C9 identifies a code bug: the scan pushes an index with a repeated
Y value onto the RESULT vector `subset` instead of the current-run vector
`s`, and never flushes the final run.  On three noise points sharing
`y = 1` it returns only two of them, and on two runs of two it returns one
index from each run — two indices with different Y values, although the
claim (and the spec) promise a maximal group sharing a single Y value. -/
theorem claim_C9_code_bug :
    largest_const_subset
      { noiseMode with sorted_ys := [(1, 10), (1, 11), (1, 12)] } = [11, 12] ∧
    largest_const_subset
      { noiseMode with sorted_ys := [(1, 10), (1, 11), (2, 20), (2, 21)] } = [11, 21] := by
  decide

/-! ## Claim C1: the partition invariant, refuted at remove_modes -/

/-- Claim C1 is false as stated: `remove_modes` deletes a small mode
together with its member set, remapping the members' `map_mode` to 0
without re-adding them to the noise mode, so they vanish from every member
set and the membership counts no longer sum to the number of observations.
State `exS3` (one observation, owned by a one-member fitted mode) satisfies
the invariant; after `remove_modes` the sum is 0 ≠ 1. -/
theorem claim_C1_counterexample :
    ¬ (∀ (lr : List (List ℚ × ℚ) → List ℚ × ℚ) (fl : List ℕ → List ℕ)
         (g : ℚ → ℚ → ℚ → ℚ) (s : EMState), wf s → partitionInv s →
        ((∀ tgt sig rels x y, partitionInv (learn s tgt sig rels x y)) ∧
         (∀ s', estep g s = some s' → partitionInv s') ∧
         partitionInv (mstep lr s).1 ∧
         partitionInv (remove_modes s).1 ∧
         (∀ seed, partitionInv (unify_or_add_mode lr fl s seed).1))) := by
  intro h
  have h2 := (h lr0 fl180 gpdf0 exS3 (by decide) (by decide)).2.2.2.1
  revert h2
  decide

/-! ## Claim C2: posterior consistency after estep, refuted -/

/-- Claim C2, amended: a completed `estep` PRESERVES posterior consistency
— if before the call every observation's MAP mode attains the maximum of
its stored `mode_prob` vector, the same holds after — but it does not
restore consistency from an inconsistent state (see the counterexample):
entries that are neither dirty nor freshly refit are skipped, so a
pre-existing mismatch survives.  (With exact ties, "attains the maximum" is
the honest reading: the C++ keeps `map_mode` when a recomputed entry merely
equals the current maximum, so `map_mode` need not be the first-index
argmax.) -/
theorem claim_C2_amended (g : ℚ → ℚ → ℚ → ℚ) (s s' : EMState)
    (hcons : consistent s) (h : estep g s = some s') : consistent s' := by
  unfold estep at h
  cases hLoop : estepLoop g s.sigs s.nmodes (List.range s.ndata)
      (s.data, s.modes, s.noise_by_sig, s.obj_maps) with
  | none => rw [hLoop] at h; cases h
  | some st =>
    rw [hLoop] at h
    obtain ⟨data, modes, nbs, om⟩ := st
    dsimp only at h
    cases h
    intro d hd
    exact estepLoop_consistent g s.sigs s.nmodes _ _ _ hLoop hcons d hd

/-- Witness for the amended claim C2 at the concrete state `exS3`. -/
theorem claim_C2_witness :
    consistent exS3 ∧ estep gpdf0 exS3 = some exS3 ∧ consistent exS3 :=
  ⟨by decide, by decide, claim_C2_amended gpdf0 exS3 exS3 (by decide) (by decide)⟩

/-- Claim C2 is false as stated: `estep` recomputes an observation's
posterior entry for mode `j` only when `prob_stale[j]` is set or mode `j`
was freshly refit, and flips `map_mode` only when a recomputed entry
changes the comparison — so a pre-existing mismatch (as `remove_modes`
leaves behind) survives a completed `estep` untouched.  In `exS2` the
observation stores `mode_prob = [PNOISE, 1/2]` with `map_mode = 0` and no
dirty bit; `estep` completes and returns it unchanged, with
`argmax(mode_prob) = 1 ≠ 0 = map_mode`. -/
theorem claim_C2_counterexample :
    ¬ (∀ (g : ℚ → ℚ → ℚ → ℚ) (s s' : EMState), wf s → estep g s = some s' →
        ∀ d ∈ s'.data, d.map_mode = argmax d.mode_prob) := by
  intro h
  have h2 := h gpdf0 exS2 exS2 (by decide) (by decide) exD0 (by decide)
  revert h2
  decide

/-! ## remove_modes characterization -/

/-- The index-map tail the compaction loop of `remove_modes` builds when
processing `js` with next free slot `i`. -/
def imTail (s : EMState) : List ℕ → ℕ → List ℕ
  | [], _ => []
  | j :: js, i =>
    if 2 < (s.modes.getD j dMode).members.card then i :: imTail s js (i + 1)
    else 0 :: imTail s js i

theorem remove_fold_spec (s : EMState) :
    ∀ (js im rem : List ℕ) (surv : List ModeInfo) (i : ℕ),
      js.foldl (removeStep s) (im, rem, surv, i) =
        (im ++ imTail s js i,
         rem ++ js.filter (fun j => (s.modes.getD j dMode).members.card ≤ 2),
         surv ++ (js.filter (fun j => 2 < (s.modes.getD j dMode).members.card)).map
           (fun j => s.modes.getD j dMode),
         i + (js.filter (fun j => 2 < (s.modes.getD j dMode).members.card)).length) := by
  intro js
  induction js with
  | nil => intro im rem surv i; simp [imTail]
  | cons j js ih =>
    intro im rem surv i
    rw [List.foldl_cons]
    by_cases hk : 2 < (s.modes.getD j dMode).members.card
    · rw [show removeStep s (im, rem, surv, i) j =
          (im ++ [i], rem, surv ++ [s.modes.getD j dMode], i + 1) from if_pos hk]
      rw [ih]
      simp only [imTail, if_pos hk, List.filter_cons]
      rw [if_neg (by simpa using Nat.not_le.mpr hk), if_pos (by simpa using hk)]
      simp [List.append_assoc]
      omega
    · rw [show removeStep s (im, rem, surv, i) j = (im ++ [0], rem ++ [j], surv, i)
          from if_neg hk]
      rw [ih]
      simp only [imTail, if_neg hk, List.filter_cons]
      rw [if_pos (by simpa using Nat.not_lt.mp hk), if_neg (by simpa using hk)]
      simp [List.append_assoc]

theorem imTail_getD (s : EMState) :
    ∀ (js : List ℕ) (i q : ℕ), q < js.length →
      (imTail s js i).getD q 0 =
        if 2 < (s.modes.getD (js.getD q 0) dMode).members.card then
          i + ((js.take q).filter
            (fun j => 2 < (s.modes.getD j dMode).members.card)).length
        else 0 := by
  intro js
  induction js with
  | nil => intro i q h; simp at h
  | cons j js ih =>
    intro i q h
    cases q with
    | zero =>
      simp only [imTail, List.take_zero, List.filter_nil, List.length_nil,
        Nat.add_zero, List.getD_cons_zero]
      split <;> rfl
    | succ q =>
      have hq : q < js.length := by simpa using h
      by_cases hk : 2 < (s.modes.getD j dMode).members.card
      · rw [show imTail s (j :: js) i = i :: imTail s js (i + 1) from by
          simp only [imTail]; rw [if_pos hk]]
        rw [List.getD_cons_succ, List.getD_cons_succ, List.take_succ_cons,
          List.filter_cons,
          if_pos (show decide (2 < (s.modes.getD j dMode).members.card) = true by
            simpa using hk),
          ih (i + 1) q hq]
        split
        · simp only [List.length_cons]
          omega
        · rfl
      · rw [show imTail s (j :: js) i = 0 :: imTail s js i from by
          simp only [imTail]; rw [if_neg hk]]
        rw [List.getD_cons_succ, List.getD_cons_succ, List.take_succ_cons,
          List.filter_cons,
          if_neg (show ¬ decide (2 < (s.modes.getD j dMode).members.card) = true by
            simpa using hk)]
        exact ih i q hq

theorem take_range' (a : ℕ) : ∀ (n q : ℕ), q ≤ n →
    (List.range' a n).take q = List.range' a q := by
  intro n q hq
  have hsplit : List.range' a q ++ List.range' (a + q) (n - q) = List.range' a n := by
    rw [List.range'_append_1]
    congr 1
    omega
  rw [← hsplit, List.take_append_of_le_length (by simp), List.take_of_length_le (by simp)]

theorem getD_range' (a n q : ℕ) (h : q < n) :
    (List.range' a n).getD q 0 = a + q := by
  rw [List.getD_eq_getElem?_getD,
    List.getElem?_eq_getElem (by simpa using h), List.getElem_range']
  simp

/-- The full index map of `remove_modes` agrees with the spec-side
description `imSpec`. -/
theorem im_getD_spec (s : EMState) (j : ℕ) (hj : j < s.nmodes) :
    ((0 :: imTail s (List.range' 1 (s.nmodes - 1)) 1).getD j 0) = imSpec s j := by
  cases j with
  | zero =>
    simp [imSpec]
  | succ q =>
    have hq : q < s.nmodes - 1 := by omega
    rw [List.getD_cons_succ,
      imTail_getD s (List.range' 1 (s.nmodes - 1)) 1 q (by simpa using hq),
      getD_range' 1 (s.nmodes - 1) q hq,
      take_range' 1 (s.nmodes - 1) q (le_of_lt hq)]
    unfold imSpec
    simp only [modeOf]
    rw [show (1 + q : ℕ) = q + 1 from Nat.add_comm 1 q]
    rcases Nat.lt_or_ge 2 (s.modes.getD (q + 1) dMode).members.card with hk | hk
    · rw [if_pos hk, if_pos ⟨by omega, hj, hk⟩, Nat.add_sub_cancel]
    · rw [if_neg (Nat.not_lt.mpr hk), if_neg (fun hc => Nat.not_lt.mpr hk hc.2.2)]

theorem remove_from_vector_nil {α : Type} (v : List α) :
    remove_from_vector [] v = v := by
  unfold remove_from_vector
  simp

theorem getD_map_lt {α β : Type} (l : List α) (f : α → β) (i : ℕ) (d : α) (d' : β)
    (h : i < l.length) : (l.map f).getD i d' = f (l.getD i d) := by
  rw [List.getD_eq_getElem?_getD, List.getD_eq_getElem?_getD,
    List.getElem?_eq_getElem (by simpa using h), List.getElem?_eq_getElem h]
  simp

theorem list_reconstruct {α : Type} (l : List α) (d : α) (h : 0 < l.length) :
    l = l.getD 0 d :: (List.range' 1 (l.length - 1)).map (fun j => l.getD j d) := by
  apply List.ext_getElem
  · simp
    omega
  · intro n h1 h2
    cases n with
    | zero =>
      simp only [List.getElem_cons_zero]
      rw [show l[0] = l.getD 0 d from by
        rw [List.getD_eq_getElem?_getD, List.getElem?_eq_getElem h]; rfl]
    | succ q =>
      have hq : q < l.length - 1 := by omega
      simp only [List.getElem_cons_succ]
      rw [List.getElem_map, List.getElem_range']
      rw [List.getD_eq_getElem?_getD, List.getElem?_eq_getElem (by omega)]
      simp [Nat.add_comm 1 q]

theorem remove_modes_noop (s : EMState) (h : removedList s = []) :
    remove_modes s = (s, false) := by
  unfold remove_modes
  rcases eq_or_ne s.nmodes 1 with h1 | h1
  · rw [if_pos h1]
  · rw [if_neg h1]
    dsimp only
    rw [remove_fold_spec s]
    dsimp only
    rw [List.nil_append]
    unfold removedList at h
    rw [if_pos (by rw [h]; rfl)]

theorem remove_modes_eq (s : EMState) (hne : s.nmodes ≠ 1)
    (hrem : removedList s ≠ []) :
    remove_modes s =
      ({ s with
          modes := ((s.modes.getD 0 dMode) ::
            ((List.range' 1 (s.nmodes - 1)).filter
              (fun j => 2 < (s.modes.getD j dMode).members.card)).map
              (fun j => s.modes.getD j dMode)).map
            (fun m =>
              { m with classifiers := remove_from_vector (removedList s) m.classifiers }),
          data := s.data.map (fun d =>
            { d with
                map_mode :=
                  (0 :: imTail s (List.range' 1 (s.nmodes - 1)) 1).getD d.map_mode 0,
                mode_prob := remove_from_vector (removedList s) d.mode_prob }),
          nmodes := 1 + ((List.range' 1 (s.nmodes - 1)).filter
            (fun j => 2 < (s.modes.getD j dMode).members.card)).length },
       true) := by
  unfold remove_modes
  rw [if_neg hne]
  dsimp only
  rw [remove_fold_spec s]
  dsimp only
  rw [List.nil_append]
  unfold removedList at hrem
  rw [if_neg (by
    intro hc
    exact hrem (List.isEmpty_iff.mp hc))]
  rw [List.singleton_append]
  rfl

theorem mem_removedList (s : EMState) (j : ℕ) :
    j ∈ removedList s ↔
      (1 ≤ j ∧ j < s.nmodes ∧ (s.modes.getD j dMode).members.card ≤ 2) := by
  unfold removedList
  rw [List.mem_filter]
  simp only [List.mem_range', decide_eq_true_eq]
  constructor
  · rintro ⟨⟨i, hi, rfl⟩, hc⟩
    exact ⟨by omega, by omega, hc⟩
  · rintro ⟨h1, h2, hc⟩
    exact ⟨⟨j - 1, by omega, by omega⟩, hc⟩

/-! ## Claim C6 -/

/-- Claim C6: `remove_modes` deletes exactly the non-noise modes with at
most 2 members, never the noise mode; the survivors keep their order (with
classifier vectors compacted over the removed indices), `nmodes` tracks the
surviving count, and every observation's `map_mode` and `mode_prob` are
remapped through the compaction (a removed mode's observations map to 0);
it reports a change exactly when some removable mode exists. -/
theorem claim_C6 (s : EMState) (hwf : wf s) :
    ((remove_modes s).2 = true ↔
      ∃ j, j < s.nmodes ∧ 1 ≤ j ∧ (modeOf s j).members.card ≤ 2) ∧
    (remove_modes s).1.modes =
      (modeOf s 0 :: ((List.range' 1 (s.nmodes - 1)).filter
          (fun j => 2 < (modeOf s j).members.card)).map (fun j => modeOf s j)).map
        (fun m =>
          { m with classifiers := remove_from_vector (removedList s) m.classifiers }) ∧
    (remove_modes s).1.nmodes = (remove_modes s).1.modes.length ∧
    (∀ i, i < s.ndata →
      (dataOf (remove_modes s).1 i).map_mode = imSpec s (dataOf s i).map_mode ∧
      (dataOf (remove_modes s).1 i).mode_prob =
        remove_from_vector (removedList s) (dataOf s i).mode_prob) ∧
    (modeOf (remove_modes s).1 0).noise = (modeOf s 0).noise ∧
    (modeOf (remove_modes s).1 0).members = (modeOf s 0).members := by
  obtain ⟨hdl, hml, hn1, hdprop⟩ := hwf
  have hmap_lt : ∀ i, i < s.ndata → (dataOf s i).map_mode < s.nmodes := by
    intro i hi
    exact (hdprop _ (getD_mem_of_lt s.data i dData (by omega))).2
  rcases eq_or_ne (removedList s) [] with hrem | hrem
  · -- nothing is removable: remove_modes is the identity with a false flag
    rw [remove_modes_noop s hrem]
    have hkeep : ∀ j ∈ List.range' 1 (s.nmodes - 1),
        2 < (s.modes.getD j dMode).members.card := by
      intro j hj
      by_contra hc
      have hmem : j ∈ removedList s := by
        rw [mem_removedList]
        rw [List.mem_range'] at hj
        obtain ⟨i, hi, rfl⟩ := hj
        exact ⟨by omega, by omega, Nat.not_lt.mp hc⟩
      rw [hrem] at hmem
      cases hmem
    have hfilter : (List.range' 1 (s.nmodes - 1)).filter
        (fun j => 2 < (s.modes.getD j dMode).members.card) =
        List.range' 1 (s.nmodes - 1) :=
      List.filter_eq_self.mpr (fun j hj => by
        simpa using hkeep j hj)
    have himid : ∀ m, m < s.nmodes → imSpec s m = m := by
      intro m hm
      unfold imSpec
      simp only [modeOf]
      cases m with
      | zero => rw [if_neg (by omega)]
      | succ q =>
        have hkq : 2 < (s.modes.getD (q + 1) dMode).members.card :=
          hkeep (q + 1) (by
            rw [List.mem_range']
            exact ⟨q, by omega, by omega⟩)
        rw [if_pos ⟨by omega, hm, hkq⟩, Nat.add_sub_cancel]
        have hfq : (List.range' 1 q).filter
            (fun j => 2 < (s.modes.getD j dMode).members.card) = List.range' 1 q :=
          List.filter_eq_self.mpr (fun j hj => by
            have hjm : j ∈ List.range' 1 (s.nmodes - 1) := by
              rw [List.mem_range'] at hj ⊢
              obtain ⟨i, hi, rfl⟩ := hj
              exact ⟨i, by omega, rfl⟩
            simpa using hkeep j hjm)
        rw [hfq, List.length_range']
        omega
    refine ⟨?_, ?_, hml.symm, ?_, rfl, rfl⟩
    · simp only [modeOf]
      constructor
      · intro hc; cases hc
      · rintro ⟨j, hj1, hj2, hj3⟩
        have hmem : j ∈ removedList s := (mem_removedList s j).mpr ⟨hj2, hj1, hj3⟩
        rw [hrem] at hmem
        cases hmem
    · simp only [modeOf, hrem, remove_from_vector_nil, hfilter]
      rw [List.map_id'' (fun m => rfl)]
      have hrec := list_reconstruct s.modes dMode (by omega)
      rw [hml] at hrec
      exact hrec
    · intro i hi
      refine ⟨(himid _ (hmap_lt i hi)).symm, ?_⟩
      rw [hrem, remove_from_vector_nil]
  · -- at least one mode is removed
    have hne : s.nmodes ≠ 1 := by
      intro hc
      apply hrem
      unfold removedList
      rw [hc]
      rfl
    rw [remove_modes_eq s hne hrem]
    refine ⟨?_, ?_, ?_, ?_, ?_, ?_⟩
    · simp only [modeOf]
      constructor
      · intro _
        obtain ⟨j, hj⟩ := List.exists_mem_of_ne_nil _ hrem
        rw [mem_removedList] at hj
        exact ⟨j, hj.2.1, hj.1, hj.2.2⟩
      · intro _; trivial
    · simp only [modeOf]
    · simp only [List.length_map, List.length_cons]
      omega
    · intro i hi
      have hget := getD_map_lt s.data (fun d =>
          ({ d with
              map_mode :=
                (0 :: imTail s (List.range' 1 (s.nmodes - 1)) 1).getD d.map_mode 0,
              mode_prob := remove_from_vector (removedList s) d.mode_prob } : EmData))
        i dData dData (by omega)
      constructor
      · show ((List.map _ s.data).getD i dData).map_mode = _
        rw [hget]
        exact im_getD_spec s _ (hmap_lt i hi)
      · show ((List.map _ s.data).getD i dData).mode_prob = _
        rw [hget]
        rfl
    · rfl
    · rfl

/-- Witness for claim C6 at the concrete state `exS3`, whose single-member
fitted mode gets removed while the noise mode survives. -/
theorem claim_C6_witness :
    wf exS3 ∧
    (((remove_modes exS3).2 = true ↔
        ∃ j, j < exS3.nmodes ∧ 1 ≤ j ∧ (modeOf exS3 j).members.card ≤ 2) ∧
      (remove_modes exS3).1.modes =
        (modeOf exS3 0 :: ((List.range' 1 (exS3.nmodes - 1)).filter
            (fun j => 2 < (modeOf exS3 j).members.card)).map
              (fun j => modeOf exS3 j)).map
          (fun m =>
            { m with classifiers :=
                remove_from_vector (removedList exS3) m.classifiers }) ∧
      (remove_modes exS3).1.nmodes = (remove_modes exS3).1.modes.length ∧
      (∀ i, i < exS3.ndata →
        (dataOf (remove_modes exS3).1 i).map_mode =
          imSpec exS3 (dataOf exS3 i).map_mode ∧
        (dataOf (remove_modes exS3).1 i).mode_prob =
          remove_from_vector (removedList exS3) (dataOf exS3 i).mode_prob) ∧
      (modeOf (remove_modes exS3).1 0).noise = (modeOf exS3 0).noise ∧
      (modeOf (remove_modes exS3).1 0).members = (modeOf exS3 0).members) :=
  ⟨by decide, claim_C6 exS3 (by decide)⟩

/-! ## Toolkit for the partition invariant (claim C1) -/

theorem getD_eq_getElem' {α : Type} (l : List α) (n : ℕ) (d : α)
    (h : n < l.length) : l.getD n d = l[n] := by
  rw [List.getD_eq_getElem?_getD, List.getElem?_eq_getElem h]
  rfl

theorem getD_append_lt {α : Type} (l1 l2 : List α) (i : ℕ) (d : α)
    (h : i < l1.length) : (l1 ++ l2).getD i d = l1.getD i d := by
  induction l1 generalizing i with
  | nil => simp at h
  | cons a l ih =>
    cases i with
    | zero => rfl
    | succ i =>
      simp only [List.cons_append, List.getD_cons_succ]
      exact ih i (by simpa using h)

theorem getD_append_len {α : Type} (l1 : List α) (a : α) (l2 : List α) (d : α) :
    (l1 ++ a :: l2).getD l1.length d = a := by
  induction l1 with
  | nil => rfl
  | cons b l ih =>
    simp only [List.cons_append, List.length_cons, List.getD_cons_succ]
    exact ih

theorem range'_snoc (a : ℕ) : ∀ n, List.range' a (n + 1) = List.range' a n ++ [a + n] := by
  intro n
  induction n generalizing a with
  | zero => simp
  | succ n ih =>
    have h1 : List.range' a (n + 2) = a :: List.range' (a + 1) (n + 1) := rfl
    have h2 : List.range' a (n + 1) = a :: List.range' (a + 1) n := rfl
    rw [h1, ih (a + 1), h2]
    simp only [List.cons_append]
    rw [show a + 1 + n = a + (n + 1) from by omega]

theorem sum_filter_split {α : Type} (p : α → Bool) (f : α → ℕ) :
    ∀ l : List α,
      ((l.filter p).map f).sum + ((l.filter (fun a => ! p a)).map f).sum =
        (l.map f).sum := by
  intro l
  induction l with
  | nil => rfl
  | cons a l ih =>
    cases hpa : p a <;> simp [List.filter_cons, hpa] <;> omega

theorem map_sum_eq_of_getD {α : Type} (f : α → ℕ) (d : α) (l1 l2 : List α)
    (hl : l1.length = l2.length)
    (h : ∀ j, j < l2.length → f (l1.getD j d) = f (l2.getD j d)) :
    (l1.map f).sum = (l2.map f).sum := by
  have hmap : l1.map f = l2.map f := by
    apply List.ext_getElem
    · simp [hl]
    · intro n h1 h2
      rw [List.getElem_map, List.getElem_map]
      have hn2 : n < l2.length := by simpa using h2
      have := h n hn2
      rwa [getD_eq_getElem' l1 n d (by omega), getD_eq_getElem' l2 n d hn2] at this
  rw [hmap]

theorem pInv_congr (data modes data' modes' : List _)
    (hdl : data'.length = data.length)
    (hml : modes'.length = modes.length)
    (hdm : ∀ i, i < data.length →
      (data'.getD i dData).map_mode = (data.getD i dData).map_mode)
    (hmm : ∀ m, (modes'.getD m dMode).members = (modes.getD m dMode).members)
    (hp : pInv data modes) : pInv data' modes' := by
  obtain ⟨ha, hb, hc⟩ := hp
  refine ⟨?_, ?_, ?_⟩
  · intro m hm i hi
    rw [hmm m] at hi
    have h2 := ha m (by omega) i hi
    exact ⟨by omega, by rw [hdm i h2.1]; exact h2.2⟩
  · intro i hi
    rw [hdm i (by omega), hmm]
    exact hb i (by omega)
  · rw [map_sum_eq_of_getD (fun m => m.members.card) dMode modes' modes hml
      (fun j _ => by dsimp only; rw [hmm j]), hdl]
    exact hc

theorem getD_set_members (l : List ModeInfo) (j : ℕ) (m : ModeInfo)
    (hm : m.members = (l.getD j dMode).members) (k : ℕ) :
    ((l.set j m).getD k dMode).members = (l.getD k dMode).members := by
  rcases eq_or_ne k j with rfl | hne
  · rcases Nat.lt_or_ge k l.length with hk | hk
    · rw [getD_set_self l k m dMode hk, hm]
    · rw [getD_of_le _ _ _ (by rw [List.length_set]; exact hk), getD_of_le _ _ _ hk]
  · rw [getD_set_ne l j m dMode k hne]

theorem getD_updList_members (l : List ModeInfo) (j : ℕ) (f : ModeInfo → ModeInfo)
    (hf : ∀ m, (f m).members = m.members) (k : ℕ) :
    ((updList l j f).getD k dMode).members = (l.getD k dMode).members := by
  rcases eq_or_ne k j with rfl | hne
  · rcases Nat.lt_or_ge k l.length with hk | hk
    · rw [getD_updList_self l k f dMode hk, hf]
    · rw [getD_of_le _ _ _ (by rw [updList_length]; exact hk), getD_of_le _ _ _ hk]
  · rw [getD_updList_ne l j f dMode k hne]

/-- Whatever signature bucket `learn` resolves, the observation goes on the
back of the data table with MAP mode 0 and index `ndata`, registered with
the noise mode. -/
theorem learn_shape (s : EMState) (tgt : ℕ) (sig : SceneSig) (rels : RelTbl)
    (x : List ℚ) (y : ℚ) :
    ∃ (sigs : List SigInfo) (dinfo : EmData), dinfo.map_mode = 0 ∧
      (learn s tgt sig rels x y).data = s.data ++ [dinfo] ∧
      (learn s tgt sig rels x y).modes =
        updList s.modes 0 (fun m => add_example (s.data ++ [dinfo]) sigs m s.ndata) := by
  unfold learn
  cases findSigIdx s.sigs sig <;> exact ⟨_, _, rfl, rfl, rfl⟩

/-- `learn` preserves the partition invariant: the fresh observation is MAP
mode 0 and inserted into the noise mode's member set. -/
theorem pInv_learn (s : EMState) (hdl : s.data.length = s.ndata)
    (hml : s.modes.length = s.nmodes) (hn1 : 1 ≤ s.nmodes)
    (hp : partitionInv s) (tgt : ℕ) (sig : SceneSig) (rels : RelTbl)
    (x : List ℚ) (y : ℚ) : partitionInv (learn s tgt sig rels x y) := by
  obtain ⟨sigs, dinfo, hmap, hdata, hmodes⟩ := learn_shape s tgt sig rels x y
  obtain ⟨ha, hb, hc⟩ := hp
  have hlen0 : 0 < s.modes.length := by omega
  have hnotmem : s.ndata ∉ (s.modes.getD 0 dMode).members := by
    intro hmem
    have := (ha 0 hlen0 s.ndata hmem).1
    omega
  unfold partitionInv
  rw [hdata, hmodes]
  refine ⟨?_, ?_, ?_⟩
  · intro m hm i hi
    rw [updList_length] at hm
    rcases eq_or_ne m 0 with rfl | hm0
    · rw [getD_updList_self s.modes 0 _ dMode hlen0,
        members_add_example] at hi
      rcases Finset.mem_insert.mp hi with rfl | hi
      · refine ⟨by simp; omega, ?_⟩
        rw [← hdl, getD_append_len s.data dinfo [] dData, hmap]
      · have h2 := ha 0 hlen0 i hi
        exact ⟨by simp; omega, by rw [getD_append_lt s.data [dinfo] i dData h2.1]; exact h2.2⟩
    · rw [getD_updList_ne s.modes 0 _ dMode m hm0] at hi
      have h2 := ha m hm i hi
      exact ⟨by simp; omega, by rw [getD_append_lt s.data [dinfo] i dData h2.1]; exact h2.2⟩
  · intro i hi
    simp only [List.length_append, List.length_singleton] at hi
    rcases Nat.lt_or_ge i s.data.length with hil | hil
    · rw [getD_append_lt s.data [dinfo] i dData hil]
      have h2 := hb i hil
      rcases eq_or_ne (s.data.getD i dData).map_mode 0 with hm0 | hm0
      · rw [hm0] at h2 ⊢
        rw [getD_updList_self s.modes 0 _ dMode hlen0, members_add_example]
        exact Finset.mem_insert_of_mem h2
      · rw [getD_updList_ne s.modes 0 _ dMode _ hm0]
        exact h2
    · have hieq : i = s.data.length := by omega
      rw [hieq, getD_append_len s.data dinfo [] dData, hmap,
        getD_updList_self s.modes 0 _ dMode hlen0, members_add_example, hdl]
      exact Finset.mem_insert_self _ _
  · have hsum := sum_map_updList (fun m => m.members.card) dMode s.modes 0
      (fun m => add_example (s.data ++ [dinfo]) sigs m s.ndata) hlen0
    dsimp only at hsum
    rw [members_add_example, Finset.card_insert_of_not_mem hnotmem] at hsum
    simp only [List.length_append, List.length_singleton]
    omega

/-- `update_fits` never touches the member set. -/
theorem update_fits_members (lr : List (List ℚ × ℚ) → List ℚ × ℚ)
    (data : List EmData) (sigs : List SigInfo) (m : ModeInfo) :
    (update_fits lr data sigs m).1.members = m.members := by
  unfold update_fits
  dsimp only
  split <;> rfl

/-- The refit fold of `mstep` keeps the mode table's length and every
member set. -/
theorem mstep_fold_members (lr : List (List ℚ × ℚ) → List ℚ × ℚ)
    (data : List EmData) (sigs : List SigInfo) :
    ∀ (js : List ℕ) (acc : List ModeInfo × Bool),
      (js.foldl (fun (acc : List ModeInfo × Bool) j =>
        if acc.2 then acc
        else
          let mc := update_fits lr data sigs (acc.1.getD j dMode)
          (acc.1.set j mc.1, mc.2)) acc).1.length = acc.1.length ∧
      ∀ k, ((js.foldl (fun (acc : List ModeInfo × Bool) j =>
        if acc.2 then acc
        else
          let mc := update_fits lr data sigs (acc.1.getD j dMode)
          (acc.1.set j mc.1, mc.2)) acc).1.getD k dMode).members =
        (acc.1.getD k dMode).members := by
  intro js
  induction js with
  | nil => exact fun acc => ⟨rfl, fun k => rfl⟩
  | cons j js ih =>
    intro acc
    simp only [List.foldl_cons]
    by_cases hflag : acc.2
    · rw [if_pos hflag]
      exact ih acc
    · rw [if_neg hflag]
      refine ⟨?_, ?_⟩
      · rw [(ih _).1]
        exact List.length_set _ _ _
      · intro k
        rw [(ih _).2 k]
        exact getD_set_members acc.1 j _ (update_fits_members lr data sigs _) k

/-- `mstep` preserves the partition invariant: refits never move members. -/
theorem pInv_mstep (lr : List (List ℚ × ℚ) → List ℚ × ℚ) (s : EMState)
    (hp : partitionInv s) : partitionInv (mstep lr s).1 := by
  have hfold := mstep_fold_members lr s.data s.sigs
    (List.range' 1 (s.nmodes - 1)) (s.modes, false)
  exact pInv_congr s.data s.modes s.data _ rfl hfold.1 (fun i _ => rfl) hfold.2 hp

/-- `init_fit` rebuilds the model, never the member set. -/
theorem init_fit_members (lr : List (List ℚ × ℚ) → List ℚ × ℚ)
    (data : List EmData) (sigs : List SigInfo) (m : ModeInfo) (inds : List ℕ) :
    (init_fit lr data sigs m inds).members = m.members := rfl

/-- A successful unification pass refits one mode in place: the data table
and every member set are untouched. -/
theorem unifyLoop_shape (lr : List (List ℚ × ℚ) → List ℚ × ℚ)
    (fl : List ℕ → List ℕ) (s : EMState) (seed : List ℕ) (ssig stgt : ℕ) :
    ∀ (js : List ℕ) (s2 : EMState),
      unifyLoop lr fl s seed ssig stgt js = some s2 →
      s2.data = s.data ∧ s2.modes.length = s.modes.length ∧
      ∀ k, (s2.modes.getD k dMode).members = (s.modes.getD k dMode).members := by
  intro js
  induction js with
  | nil =>
    intro s2 h
    simp only [unifyLoop] at h
    cases h
  | cons j js ih =>
    intro s2 h
    simp only [unifyLoop] at h
    split at h
    · exact ih s2 h
    · split at h
      · cases h
        refine ⟨rfl, updList_length _ _ _, ?_⟩
        intro k
        exact getD_updList_members s.modes j _
          (fun m => init_fit_members lr s.data s.sigs m _) k
      · exact ih s2 h

/-- Registering a brand-new mode preserves the partition invariant: the new
mode starts with no members and no observation's MAP index moves. -/
theorem pInv_register (lr : List (List ℚ × ℚ) → List ℚ × ℚ) (s : EMState)
    (seed : List ℕ) (hp : partitionInv s) :
    partitionInv (register_new_mode lr s seed) := by
  obtain ⟨ha, hb, hc⟩ := hp
  have hmm : ∀ m, ((register_new_mode lr s seed).modes.getD m dMode).members =
      if m < s.modes.length then (s.modes.getD m dMode).members else ∅ := by
    intro m
    show (((s.modes ++ [init_fit lr s.data s.sigs freshMode seed]).map (fun m =>
      { m with classifiers := resizeList m.classifiers (s.nmodes + 1) none })).getD
        m dMode).members = _
    rcases Nat.lt_or_ge m s.modes.length with hm | hm
    · rw [getD_map_lt _ _ m dMode dMode (by simp; omega),
        getD_append_lt s.modes _ m dMode hm, if_pos hm]
    · rcases Nat.lt_or_ge m (s.modes.length + 1) with hm1 | hm1
      · have hmeq : m = s.modes.length := by omega
        rw [getD_map_lt _ _ m dMode dMode (by simp; omega), if_neg (by omega), hmeq,
          getD_append_len s.modes _ [] dMode, init_fit_members]
        rfl
      · rw [getD_of_le _ _ _ (by simp; omega), if_neg (by omega)]
        rfl
  have hdm : ∀ i, i < s.data.length →
      ((register_new_mode lr s seed).data.getD i dData).map_mode =
        (s.data.getD i dData).map_mode := by
    intro i hi
    show ((s.data.map (fun d => { d with mode_prob := d.mode_prob ++ [0] })).getD
      i dData).map_mode = _
    rw [getD_map_lt s.data _ i dData dData hi]
  have hdlen : (register_new_mode lr s seed).data.length = s.data.length := by
    show (s.data.map _).length = _
    exact List.length_map _ _
  refine ⟨?_, ?_, ?_⟩
  · intro m hm i hi
    rw [hmm m] at hi
    rcases Nat.lt_or_ge m s.modes.length with hml | hml
    · rw [if_pos hml] at hi
      have h2 := ha m hml i hi
      exact ⟨by omega, by rw [hdm i h2.1]; exact h2.2⟩
    · rw [if_neg (by omega)] at hi
      exact absurd hi (Finset.not_mem_empty i)
  · intro i hi
    rw [hdlen] at hi
    rw [hdm i hi, hmm]
    have h2 := hb i hi
    rcases Nat.lt_or_ge (s.data.getD i dData).map_mode s.modes.length with hj | hj
    · rw [if_pos hj]
      exact h2
    · rw [getD_of_le s.modes _ dMode hj] at h2
      exact absurd h2 (Finset.not_mem_empty i)
  · show (((s.modes ++ [init_fit lr s.data s.sigs freshMode seed]).map (fun m =>
      { m with classifiers := resizeList m.classifiers (s.nmodes + 1) none })).map
        (fun m => m.members.card)).sum = _
    rw [List.map_map, hdlen]
    show ((s.modes ++ [init_fit lr s.data s.sigs freshMode seed]).map
      (fun m => m.members.card)).sum = s.data.length
    rw [List.map_append, List.sum_append]
    show (s.modes.map (fun m => m.members.card)).sum + (freshMode.members.card + 0) = _
    rw [hc]
    rfl

/-- `unify_or_add_mode` preserves the partition invariant on both branches. -/
theorem pInv_unify (lr : List (List ℚ × ℚ) → List ℚ × ℚ)
    (fl : List ℕ → List ℕ) (s : EMState) (hp : partitionInv s) (seed : List ℕ) :
    partitionInv (unify_or_add_mode lr fl s seed).1 := by
  have hp1 : partitionInv { s with check_after := NEW_MODE_THRESH } := hp
  unfold unify_or_add_mode
  dsimp only
  cases hU : unifyLoop lr fl { s with check_after := NEW_MODE_THRESH } seed
      (s.data.getD (seed.getD 0 0) dData).sig_index
      (s.data.getD (seed.getD 0 0) dData).target
      (List.range' 1 (s.nmodes - 1)) with
  | some s2 =>
    have hsh := unifyLoop_shape lr fl _ seed _ _ _ s2 hU
    have hsh1 : s2.data = s.data := hsh.1
    exact pInv_congr s.data s.modes s2.data s2.modes (by rw [hsh1]) hsh.2.1
      (fun i _ => by rw [hsh1]) hsh.2.2 hp
  | none =>
    exact pInv_register lr _ seed hp1

/-- The E-step inner loop only overwrites posterior entries in place, so the
working vector keeps its length. -/
theorem estepInner_length (gpdf : ℚ → ℚ → ℚ → ℚ) (modes : List ModeInfo)
    (dsig : SceneSig) (tgt : ℕ) (x : List ℚ) (yv : ℚ) (mapm i : ℕ) :
    ∀ (js : List ℕ) (acc acc' : InnerAcc),
      estepInner gpdf modes dsig tgt x yv mapm i js acc = some acc' →
      acc'.mode_prob.length = acc.mode_prob.length := by
  intro js
  induction js with
  | nil =>
    intro acc acc' h
    simp only [estepInner] at h
    cases h
    rfl
  | cons j js ih =>
    intro acc acc' h
    simp only [estepInner] at h
    split at h
    · exact ih acc acc' h
    · cases hcp : calc_prob gpdf (modes.getD j dMode) tgt dsig x yv with
      | none => rw [hcp] at h; cases h
      | some v =>
        rw [hcp] at h
        obtain ⟨now, asg, err⟩ := v
        dsimp only at h
        rw [ih _ acc' h]
        exact List.length_set _ _ _

/-- Moving one observation from its old MAP mode to a new one keeps the
partition: the observation is erased from the old member set and inserted
into the new one, and its stored index moves with it. -/
theorem pInv_flip (data : List EmData) (modes : List ModeInfo)
    (sigs : List SigInfo) (i : ℕ) (d2 : EmData) (now : ℕ)
    (hi : i < data.length)
    (hm2 : d2.map_mode = now)
    (hnow_lt : now < modes.length)
    (hne : now ≠ (data.getD i dData).map_mode)
    (hp : pInv data modes) :
    pInv (data.set i d2)
      (updList (updList modes ((data.getD i dData).map_mode)
        (fun m => del_example (data.set i d2) sigs m i)) now
        (fun m => add_example (data.set i d2) sigs m i)) := by
  obtain ⟨ha, hb, hc⟩ := hp
  have hmem_prev : i ∈ (modes.getD (data.getD i dData).map_mode dMode).members := hb i hi
  have hprev_lt : (data.getD i dData).map_mode < modes.length := by
    by_contra hc2
    rw [getD_of_le modes _ dMode (by omega)] at hmem_prev
    exact absurd hmem_prev (Finset.not_mem_empty i)
  have hnot_now : i ∉ (modes.getD now dMode).members := by
    intro hmem
    exact hne ((ha now hnow_lt i hmem).2).symm
  have hmm : ∀ k, ((updList (updList modes ((data.getD i dData).map_mode)
      (fun m => del_example (data.set i d2) sigs m i)) now
      (fun m => add_example (data.set i d2) sigs m i)).getD k dMode).members =
      if k = now then insert i (modes.getD now dMode).members
      else if k = (data.getD i dData).map_mode then
        (modes.getD (data.getD i dData).map_mode dMode).members.erase i
      else (modes.getD k dMode).members := by
    intro k
    rcases eq_or_ne k now with rfl | hkn
    · rw [if_pos rfl,
        getD_updList_self _ k _ dMode (by rw [updList_length]; exact hnow_lt),
        members_add_example, getD_updList_ne modes _ _ dMode k hne]
    · rw [if_neg hkn, getD_updList_ne _ now _ dMode k hkn]
      rcases eq_or_ne k (data.getD i dData).map_mode with hkp | hkp
      · rw [if_pos hkp, hkp, getD_updList_self modes _ _ dMode hprev_lt,
          members_del_example]
      · rw [if_neg hkp, getD_updList_ne modes _ _ dMode k hkp]
  refine ⟨?_, ?_, ?_⟩
  · intro m hm i' hi'
    rw [updList_length, updList_length] at hm
    rw [hmm m] at hi'
    rcases eq_or_ne m now with rfl | hmn
    · rw [if_pos rfl] at hi'
      rcases Finset.mem_insert.mp hi' with rfl | hi'
      · exact ⟨by rw [List.length_set]; exact hi,
          by rw [getD_set_self data i' d2 dData hi, hm2]⟩
      · have h2 := ha m hm i' hi'
        have hii : i' ≠ i := fun he => hne (by rw [← he]; exact h2.2.symm)
        exact ⟨by rw [List.length_set]; exact h2.1,
          by rw [getD_set_ne data i d2 dData i' hii]; exact h2.2⟩
    · rw [if_neg hmn] at hi'
      rcases eq_or_ne m (data.getD i dData).map_mode with hmp | hmp
      · rw [if_pos hmp] at hi'
        obtain ⟨hii, hi'⟩ := Finset.mem_erase.mp hi'
        rw [← hmp] at hi'
        have h2 := ha m hm i' hi'
        exact ⟨by rw [List.length_set]; exact h2.1,
          by rw [getD_set_ne data i d2 dData i' hii]; exact h2.2⟩
      · rw [if_neg hmp] at hi'
        have h2 := ha m hm i' hi'
        have hii : i' ≠ i := fun he => hmp (by rw [← he]; exact h2.2.symm)
        exact ⟨by rw [List.length_set]; exact h2.1,
          by rw [getD_set_ne data i d2 dData i' hii]; exact h2.2⟩
  · intro i' hi'
    rw [List.length_set] at hi'
    rcases eq_or_ne i' i with rfl | hii
    · rw [getD_set_self data i' d2 dData hi, hm2, hmm now, if_pos rfl]
      exact Finset.mem_insert_self _ _
    · rw [getD_set_ne data i d2 dData i' hii]
      have h2 := hb i' hi'
      rw [hmm]
      rcases eq_or_ne (data.getD i' dData).map_mode now with hj | hj
      · rw [if_pos hj, ← hj]
        exact Finset.mem_insert_of_mem h2
      · rw [if_neg hj]
        rcases eq_or_ne (data.getD i' dData).map_mode (data.getD i dData).map_mode with hj2 | hj2
        · rw [if_pos hj2, ← hj2]
          exact Finset.mem_erase.mpr ⟨hii, h2⟩
        · rw [if_neg hj2]
          exact h2
  · have h1 := sum_map_updList (fun m => m.members.card) dMode modes
      ((data.getD i dData).map_mode)
      (fun m => del_example (data.set i d2) sigs m i) hprev_lt
    have h2 := sum_map_updList (fun m => m.members.card) dMode
      (updList modes ((data.getD i dData).map_mode)
        (fun m => del_example (data.set i d2) sigs m i)) now
      (fun m => add_example (data.set i d2) sigs m i)
      (by rw [updList_length]; exact hnow_lt)
    dsimp only at h1 h2
    rw [members_del_example, Finset.card_erase_of_mem hmem_prev] at h1
    rw [members_add_example,
      getD_updList_ne modes _ _ dMode now hne,
      Finset.card_insert_of_not_mem hnot_now] at h2
    have hpos : 0 < (modes.getD (data.getD i dData).map_mode dMode).members.card :=
      Finset.card_pos.mpr ⟨i, hmem_prev⟩
    rw [List.length_set]
    omega

/-- One E-step observation preserves the partition invariant along with the
structural bookkeeping the loop needs. -/
theorem estepObs_pInv (gpdf : ℚ → ℚ → ℚ → ℚ) (sigs : List SigInfo) (nmodes : ℕ)
    (data : List EmData) (modes : List ModeInfo)
    (nbs : List (ℕ × Finset ℕ)) (om : List ((ℕ × ℕ) × List ℕ)) (i : ℕ)
    (st' : List EmData × List ModeInfo × List (ℕ × Finset ℕ) × List ((ℕ × ℕ) × List ℕ))
    (h : estepObs gpdf sigs nmodes (data, modes, nbs, om) i = some st')
    (hi : i < data.length)
    (hml : modes.length = nmodes) (hn1 : 1 ≤ nmodes)
    (hdp : ∀ d ∈ data, d.mode_prob.length = nmodes)
    (hp : pInv data modes) :
    st'.1.length = data.length ∧ st'.2.1.length = nmodes ∧
    (∀ d ∈ st'.1, d.mode_prob.length = nmodes) ∧ pInv st'.1 st'.2.1 := by
  unfold estepObs at h
  dsimp only at h
  cases hInner : estepInner gpdf modes (sigs.getD (data.getD i dData).sig_index dSig).sig
      (data.getD i dData).target (data.getD i dData).x (data.getD i dData).y
      (data.getD i dData).map_mode i (List.range' 1 (nmodes - 1))
      ⟨(data.getD i dData).mode_prob, (data.getD i dData).prob_stale, false, om⟩ with
  | none => rw [hInner] at h; cases h
  | some acc =>
    rw [hInner] at h
    dsimp only at h
    have hmplen : acc.mode_prob.length = nmodes := by
      rw [estepInner_length gpdf modes _ _ _ _ _ i _ _ acc hInner]
      exact hdp _ (getD_mem_of_lt data i dData hi)
    have hset : ∀ (d1 : EmData), d1.map_mode = (data.getD i dData).map_mode →
        d1.mode_prob.length = nmodes →
        (data.set i d1).length = data.length ∧ modes.length = nmodes ∧
        (∀ d ∈ data.set i d1, d.mode_prob.length = nmodes) ∧
        pInv (data.set i d1) modes := by
      intro d1 hm1 hl1
      refine ⟨List.length_set data i d1, hml, ?_, ?_⟩
      · intro d hd
        rcases List.mem_or_eq_of_mem_set hd with hd | hd
        · exact hdp d hd
        · rw [hd]; exact hl1
      · refine pInv_congr data modes (data.set i d1) modes
          (List.length_set data i d1) rfl ?_ (fun m => rfl) hp
        intro k hk
        rcases eq_or_ne k i with rfl | hne
        · rw [getD_set_self data k d1 dData hk, hm1]
        · rw [getD_set_ne data i d1 dData k hne]
    split at h
    · split at h
      · -- the MAP mode flips: members move with the observation
        rename_i hne
        cases h
        refine ⟨List.length_set data i _, ?_, ?_, ?_⟩
        · rw [updList_length, updList_length]; exact hml
        · intro d hd
          rcases List.mem_or_eq_of_mem_set hd with hd | hd
          · exact hdp d hd
          · rw [hd]; exact hmplen
        · have hnonnil : acc.mode_prob ≠ [] := by
            intro hnil
            rw [hnil] at hmplen
            simp at hmplen
            omega
          have hnow_lt : argmax acc.mode_prob < modes.length := by
            rw [hml, ← hmplen]
            exact argmax_lt_length acc.mode_prob hnonnil
          refine pInv_flip data modes sigs i _ (argmax acc.mode_prob) hi ?_ hnow_lt hne hp
          rfl
      · rename_i hcond
        cases h
        exact hset _ rfl hmplen
    · rename_i hcond
      cases h
      exact hset _ rfl hmplen

/-- The E-step outer loop preserves the partition invariant and the
structural bookkeeping. -/
theorem estepLoop_pInv (gpdf : ℚ → ℚ → ℚ → ℚ) (sigs : List SigInfo) (nmodes : ℕ) :
    ∀ (is : List ℕ)
      (st st' : List EmData × List ModeInfo × List (ℕ × Finset ℕ) × List ((ℕ × ℕ) × List ℕ)),
      estepLoop gpdf sigs nmodes is st = some st' →
      (∀ i ∈ is, i < st.1.length) →
      st.2.1.length = nmodes → 1 ≤ nmodes →
      (∀ d ∈ st.1, d.mode_prob.length = nmodes) →
      pInv st.1 st.2.1 →
      st'.1.length = st.1.length ∧ st'.2.1.length = nmodes ∧
      (∀ d ∈ st'.1, d.mode_prob.length = nmodes) ∧ pInv st'.1 st'.2.1 := by
  intro is
  induction is with
  | nil =>
    intro st st' h _ hml _ hdp hp
    simp only [estepLoop] at h
    cases h
    exact ⟨rfl, hml, hdp, hp⟩
  | cons i is ih =>
    intro st st' h his hml hn1 hdp hp
    simp only [estepLoop] at h
    cases hObs : estepObs gpdf sigs nmodes st i with
    | none => rw [hObs] at h; cases h
    | some st1 =>
      rw [hObs] at h
      obtain ⟨data, modes, nbs, om⟩ := st
      have hstep := estepObs_pInv gpdf sigs nmodes data modes nbs om i st1 hObs
        (his i (List.mem_cons_self i is)) hml hn1 hdp hp
      have hrec := ih st1 st' h
        (fun k hk => by rw [hstep.1]; exact his k (List.mem_cons_of_mem i hk))
        hstep.2.1 hn1 hstep.2.2.1 hstep.2.2.2
      exact ⟨by rw [hrec.1, hstep.1], hrec.2⟩

/-- Clearing the `new_fit` flags at the end of `estep` keeps every member
set. -/
theorem getD_enum_map_members (modes : List ModeInfo) (k : ℕ) :
    ((modes.enum.map (fun p =>
      if 1 ≤ p.1 then { p.2 with new_fit := false } else p.2)).getD
        k dMode).members = (modes.getD k dMode).members := by
  rcases Nat.lt_or_ge k modes.length with hk | hk
  · rw [getD_map_lt modes.enum _ k (0, dMode) dMode (by simpa using hk)]
    have h1 : modes.enum.getD k (0, dMode) = (k, modes.getD k dMode) := by
      rw [getD_eq_getElem' _ _ _ (by simpa using hk), List.getElem_enum,
        getD_eq_getElem' _ _ _ hk]
    rw [h1]
    dsimp only
    split <;> rfl
  · rw [getD_of_le _ _ _ (by simpa using hk), getD_of_le _ _ _ hk]

/-- A completed `estep` preserves the partition invariant. -/
theorem pInv_estep (g : ℚ → ℚ → ℚ → ℚ) (s : EMState) (hwf : wf s)
    (hp : partitionInv s) (s' : EMState) (h : estep g s = some s') :
    partitionInv s' := by
  obtain ⟨hdl, hml, hn1, hdprop⟩ := hwf
  unfold estep at h
  cases hL : estepLoop g s.sigs s.nmodes (List.range s.ndata)
      (s.data, s.modes, s.noise_by_sig, s.obj_maps) with
  | none => rw [hL] at h; cases h
  | some st =>
    rw [hL] at h
    obtain ⟨data, modes, nbs, om⟩ := st
    dsimp only at h
    cases h
    have hLp := estepLoop_pInv g s.sigs s.nmodes (List.range s.ndata)
      (s.data, s.modes, s.noise_by_sig, s.obj_maps) (data, modes, nbs, om) hL
      (fun i hi2 => by rw [hdl]; exact List.mem_range.mp hi2)
      hml hn1 (fun d hd => (hdprop d hd).1) hp
    exact pInv_congr data modes data _ rfl
      (by simp) (fun i _ => rfl)
      (fun k => getD_enum_map_members modes k) hLp.2.2.2

/-- The `t`-th surviving index of a filtered range is preceded by exactly
`t` surviving indices, and lies inside the range. -/
theorem filter_pos_aux (p : ℕ → Bool) :
    ∀ (n t : ℕ), t < ((List.range' 1 n).filter p).length →
      ((List.range' 1 ((((List.range' 1 n).filter p).getD t 0) - 1)).filter p).length = t ∧
      1 ≤ ((List.range' 1 n).filter p).getD t 0 ∧
      ((List.range' 1 n).filter p).getD t 0 < 1 + n := by
  intro n
  induction n with
  | zero =>
    intro t ht
    simp at ht
  | succ n ih =>
    intro t ht
    rw [range'_snoc 1 n, List.filter_append] at ht ⊢
    rcases Nat.lt_or_ge t ((List.range' 1 n).filter p).length with h | h
    · rw [getD_append_lt _ _ t 0 h]
      have h3 := ih t h
      exact ⟨h3.1, h3.2.1, by omega⟩
    · cases hpn : p (1 + n) with
      | false =>
        rw [show List.filter p [1 + n] = [] from by simp [hpn],
          List.append_nil] at ht
        exact absurd ht (by omega)
      | true =>
        rw [show List.filter p [1 + n] = [1 + n] from by simp [hpn]] at ht ⊢
        have hteq : t = ((List.range' 1 n).filter p).length := by
          rw [List.length_append] at ht
          simp at ht
          omega
        subst hteq
        rw [getD_append_len _ _ [] 0]
        refine ⟨?_, by omega, by omega⟩
        rw [show 1 + n - 1 = n from by omega]

/-- Conversely, a surviving index `j` sits at position `count of survivors
before j` in the filtered range. -/
theorem filter_pos_inv (p : ℕ → Bool) :
    ∀ (n j : ℕ), j ∈ (List.range' 1 n).filter p →
      ((List.range' 1 (j - 1)).filter p).length < ((List.range' 1 n).filter p).length ∧
      ((List.range' 1 n).filter p).getD
        (((List.range' 1 (j - 1)).filter p).length) 0 = j := by
  intro n
  induction n with
  | zero =>
    intro j hj
    simp at hj
  | succ n ih =>
    intro j hj
    rw [range'_snoc 1 n, List.filter_append] at hj ⊢
    rcases List.mem_append.mp hj with hj | hj
    · have h3 := ih j hj
      refine ⟨by rw [List.length_append]; omega, ?_⟩
      rw [getD_append_lt _ _ _ 0 h3.1]
      exact h3.2
    · have hpn : p (1 + n) = true ∧ j = 1 + n := by
        cases hq : p (1 + n) with
        | false =>
          rw [show List.filter p [1 + n] = [] from by simp [hq]] at hj
          cases hj
        | true =>
          rw [show List.filter p [1 + n] = [1 + n] from by simp [hq]] at hj
          exact ⟨rfl, List.mem_singleton.mp hj⟩
      obtain ⟨hq, rfl⟩ := hpn
      rw [show List.filter p [1 + n] = [1 + n] from by simp [hq],
        show 1 + n - 1 = n from by omega]
      constructor
      · rw [List.length_append]
        simp
      · exact getD_append_len _ _ [] 0

/-- Reading the compacted mode table: slot 0 is the noise mode. -/
theorem compact_members_zero (modes : List ModeInfo) (rem : List ℕ) (kept : List ℕ) :
    (((modes.getD 0 dMode :: kept.map (fun j => modes.getD j dMode)).map
      (fun m => { m with classifiers := remove_from_vector rem m.classifiers })).getD
        0 dMode).members = (modes.getD 0 dMode).members := rfl

/-- Reading the compacted mode table: slot `t+1` is the `t`-th kept mode. -/
theorem compact_members_succ (modes : List ModeInfo) (rem : List ℕ) (kept : List ℕ)
    (t : ℕ) (ht : t < kept.length) :
    (((modes.getD 0 dMode :: kept.map (fun j => modes.getD j dMode)).map
      (fun m => { m with classifiers := remove_from_vector rem m.classifiers })).getD
        (t + 1) dMode).members = (modes.getD (kept.getD t 0) dMode).members := by
  rw [List.map_cons, List.getD_cons_succ, List.map_map,
    getD_map_lt kept _ t 0 dMode ht]
  rfl

/-- Membership counts of the compacted mode table. -/
theorem compact_sum (modes : List ModeInfo) (rem : List ℕ) (kept : List ℕ) :
    (((modes.getD 0 dMode :: kept.map (fun j => modes.getD j dMode)).map
      (fun m => { m with classifiers := remove_from_vector rem m.classifiers })).map
        (fun m => m.members.card)).sum =
      (modes.getD 0 dMode).members.card +
        (kept.map (fun j => (modes.getD j dMode).members.card)).sum := by
  simp only [List.map_cons, List.sum_cons, List.map_map]
  rfl

/-- `remove_modes` preserves the partition invariant whenever every removed
mode has an empty member set (in general it loses the removed modes'
members, see the counterexample to claim C1). -/
theorem pInv_remove (s : EMState) (hwf : wf s) (hp : partitionInv s)
    (hemp : ∀ j ∈ removedList s, (modeOf s j).members = ∅) :
    partitionInv (remove_modes s).1 := by
  obtain ⟨hdl, hml, hn1, hdprop⟩ := hwf
  obtain ⟨ha, hb, hc⟩ := hp
  rcases eq_or_ne (removedList s) [] with hrem | hrem
  · rw [remove_modes_noop s hrem]
    exact ⟨ha, hb, hc⟩
  · have hne : s.nmodes ≠ 1 := by
      intro hceq
      apply hrem
      unfold removedList
      rw [hceq]
      rfl
    rw [remove_modes_eq s hne hrem]
    have hDmap : ∀ i, i < s.data.length →
        ((s.data.map (fun d =>
          ({ d with
              map_mode :=
                (0 :: imTail s (List.range' 1 (s.nmodes - 1)) 1).getD d.map_mode 0,
              mode_prob := remove_from_vector (removedList s) d.mode_prob } : EmData))).getD
            i dData).map_mode = imSpec s ((s.data.getD i dData).map_mode) := by
      intro i hi2
      rw [getD_map_lt s.data _ i dData dData hi2]
      exact im_getD_spec s _ (hdprop _ (getD_mem_of_lt s.data i dData hi2)).2
    unfold partitionInv pInv
    dsimp only
    refine ⟨?_, ?_, ?_⟩
    · intro m hm i hi2
      rw [List.length_map, List.length_cons, List.length_map] at hm
      cases m with
      | zero =>
        rw [compact_members_zero] at hi2
        have h2 := ha 0 (by omega) i hi2
        refine ⟨by simpa using h2.1, ?_⟩
        rw [hDmap i h2.1, h2.2]
        simp [imSpec]
      | succ t =>
        have ht : t < ((List.range' 1 (s.nmodes - 1)).filter
            (fun j => decide (2 < (s.modes.getD j dMode).members.card))).length := by
          omega
        rw [compact_members_succ s.modes (removedList s) _ t ht] at hi2
        have hK := filter_pos_aux
          (fun j => decide (2 < (s.modes.getD j dMode).members.card))
          (s.nmodes - 1) t ht
        have hjlt : ((List.range' 1 (s.nmodes - 1)).filter
            (fun j => decide (2 < (s.modes.getD j dMode).members.card))).getD t 0
            < s.nmodes := by omega
        have hPj : 2 < (s.modes.getD (((List.range' 1 (s.nmodes - 1)).filter
            (fun j => decide (2 < (s.modes.getD j dMode).members.card))).getD t 0)
            dMode).members.card := by
          have hmemf := List.of_mem_filter (getD_mem_of_lt _ t 0 ht)
          simpa using hmemf
        have h2 := ha _ (by omega) i hi2
        refine ⟨by simpa using h2.1, ?_⟩
        rw [hDmap i h2.1, h2.2]
        unfold imSpec
        simp only [modeOf]
        rw [if_pos ⟨hK.2.1, hjlt, hPj⟩, hK.1]
        omega
    · intro i hi2
      rw [List.length_map] at hi2
      rw [hDmap i hi2]
      have h2 := hb i hi2
      have hjlt : (s.data.getD i dData).map_mode < s.nmodes :=
        (hdprop _ (getD_mem_of_lt s.data i dData hi2)).2
      rcases Nat.eq_zero_or_pos (s.data.getD i dData).map_mode with hj0 | hj1
      · rw [hj0, show imSpec s 0 = 0 from by simp [imSpec], compact_members_zero]
        rw [hj0] at h2
        exact h2
      · rcases Nat.lt_or_ge 2
          ((s.modes.getD ((s.data.getD i dData).map_mode) dMode).members.card)
          with hcard | hcard
        · have hmemL : (s.data.getD i dData).map_mode ∈
              (List.range' 1 (s.nmodes - 1)).filter
                (fun j => decide (2 < (s.modes.getD j dMode).members.card)) := by
            apply List.mem_filter.mpr
            refine ⟨List.mem_range'.mpr
              ⟨(s.data.getD i dData).map_mode - 1, by omega, by omega⟩, by simpa using hcard⟩
          have hI := filter_pos_inv
            (fun j => decide (2 < (s.modes.getD j dMode).members.card))
            (s.nmodes - 1) _ hmemL
          have himVal : imSpec s ((s.data.getD i dData).map_mode) =
              1 + ((List.range' 1 ((s.data.getD i dData).map_mode - 1)).filter
                (fun j => decide (2 < (s.modes.getD j dMode).members.card))).length := by
            unfold imSpec
            simp only [modeOf]
            rw [if_pos ⟨by omega, hjlt, hcard⟩]
          rw [himVal, Nat.add_comm 1 _,
            compact_members_succ s.modes (removedList s) _ _ hI.1, hI.2]
          exact h2
        · have hmemR : (s.data.getD i dData).map_mode ∈ removedList s :=
            (mem_removedList s _).mpr ⟨by omega, hjlt, by omega⟩
          have hempj : (s.modes.getD ((s.data.getD i dData).map_mode) dMode).members = ∅ :=
            hemp _ hmemR
          rw [hempj] at h2
          exact absurd h2 (Finset.not_mem_empty i)
    · rw [compact_sum s.modes (removedList s) _, List.length_map]
      have hsplit := sum_filter_split
        (fun j => decide (2 < (s.modes.getD j dMode).members.card))
        (fun j => (s.modes.getD j dMode).members.card)
        (List.range' 1 (s.nmodes - 1))
      have hzero : (((List.range' 1 (s.nmodes - 1)).filter
          (fun j => ! decide (2 < (s.modes.getD j dMode).members.card))).map
            (fun j => (s.modes.getD j dMode).members.card)).sum = 0 := by
        apply List.sum_eq_zero
        intro x hx
        rw [List.mem_map] at hx
        obtain ⟨j, hj, rfl⟩ := hx
        obtain ⟨hjr, hjp⟩ := List.mem_filter.mp hj
        have hjb : 1 ≤ j ∧ j < s.nmodes := by
          rw [List.mem_range'] at hjr
          obtain ⟨q, hq, rfl⟩ := hjr
          omega
        have hple : (s.modes.getD j dMode).members.card ≤ 2 := by
          rw [Bool.not_eq_true', decide_eq_false_iff_not] at hjp
          omega
        have hempq : (s.modes.getD j dMode).members = ∅ :=
          hemp _ ((mem_removedList s _).mpr ⟨hjb.1, hjb.2, hple⟩)
        rw [hempq]
        rfl
      have hrec := hc
      rw [list_reconstruct s.modes dMode (by omega)] at hrec
      rw [List.map_cons, List.sum_cons, List.map_map, hml] at hrec
      rw [show (List.range' 1 (s.nmodes - 1)).map
          ((fun m => m.members.card) ∘ fun j => s.modes.getD j dMode) =
          (List.range' 1 (s.nmodes - 1)).map
          (fun j => (s.modes.getD j dMode).members.card) from rfl] at hrec
      omega

/-- Claim C1, amended: on a structurally well-formed state satisfying the
partition invariant — every mode member is a live observation whose MAP
index is that mode, every observation sits in its MAP mode's member set,
and membership counts sum to the observation count — the invariant is
preserved by `learn`, by a completed `estep`, by `mstep`, and by
`unify_or_add_mode` on both branches; `remove_modes` preserves it only
when every removed mode's member set is already empty (in general it drops
the removed modes' members without reassigning them, breaking the claim —
see the counterexample). -/
theorem claim_C1_amended (lr : List (List ℚ × ℚ) → List ℚ × ℚ)
    (fl : List ℕ → List ℕ) (g : ℚ → ℚ → ℚ → ℚ) (s : EMState)
    (hwf : wf s) (hp : partitionInv s) :
    (∀ tgt sig rels x y, partitionInv (learn s tgt sig rels x y)) ∧
    (∀ s', estep g s = some s' → partitionInv s') ∧
    partitionInv (mstep lr s).1 ∧
    (∀ seed, partitionInv (unify_or_add_mode lr fl s seed).1) ∧
    ((∀ j ∈ removedList s, (modeOf s j).members = ∅) →
      partitionInv (remove_modes s).1) := by
  refine ⟨?_, ?_, pInv_mstep lr s hp, pInv_unify lr fl s hp, pInv_remove s hwf hp⟩
  · intro tgt sig rels x y
    exact pInv_learn s hwf.1 hwf.2.1 hwf.2.2.1 hp tgt sig rels x y
  · intro s' h
    exact pInv_estep g s hwf hp s' h

/-- Witness for the amended claim C1 at the concrete state `exS2` (one
observation owned by the noise mode, one empty fitted mode). -/
theorem claim_C1_witness :
    wf exS2 ∧ partitionInv exS2 ∧ partitionInv (mstep lr0 exS2).1 :=
  ⟨by decide, by decide,
    (claim_C1_amended lr0 fl180 gpdf0 exS2 (by decide) (by decide)).2.2.1⟩

/-! ## Claim C4: the calc_prob definition -/

/-- The assignment loop of `calc_prob` computes the strict-improvement
maximum: a successful run returns a nonnegative value that dominates every
scored combination and is either the seed or attained by some combination. -/
theorem scoreLoop_spec (g : ℚ → ℚ → ℚ → ℚ) (msig xsig : SceneSig)
    (coefs : List ℚ) (inter : ℚ) (x : List ℚ) (y : ℚ) :
    ∀ (combos : List (List ℕ)) (best out : ℚ × List ℕ × ℚ),
      (∀ a ∈ combos, checkSizes msig xsig a = true) →
      scoreLoop g msig xsig coefs inter x y combos best = some out →
      0 ≤ out.1 ∧
      (out = best ∨ ∃ a ∈ combos,
        out.1 = assignScore g xsig coefs inter x y a ∧ best.1 < out.1) ∧
      best.1 ≤ out.1 ∧
      ∀ a ∈ combos, assignScore g xsig coefs inter x y a ≤ out.1 := by
  intro combos
  induction combos with
  | nil =>
    intro best out hchk h
    simp only [scoreLoop] at h
    split at h
    · cases h
      rename_i h0
      exact ⟨h0, Or.inl rfl, le_refl _, by simp⟩
    · cases h
  | cons a rest ih =>
    intro best out hchk h
    simp only [scoreLoop] at h
    rw [if_pos (hchk a (List.mem_cons_self a rest))] at h
    rcases lt_or_ge best.1
        ((1 - EPSILON) * g y (dotProd (gatherX xsig x a) coefs + inter) MEASURE_VAR)
      with hlt | hge
    · rw [if_pos hlt] at h
      have hrest := ih _ out (fun a' ha' => hchk a' (List.mem_cons_of_mem a ha')) h
      refine ⟨hrest.1, ?_, ?_, ?_⟩
      · rcases hrest.2.1 with heq | ⟨a', ha', hsc, hbl⟩
        · refine Or.inr ⟨a, List.mem_cons_self a rest, ?_, ?_⟩
          · rw [heq]
            rfl
          · rw [heq]
            exact hlt
        · exact Or.inr ⟨a', List.mem_cons_of_mem a ha', hsc, lt_trans hlt hbl⟩
      · exact le_trans (le_of_lt hlt) hrest.2.2.1
      · intro a' ha'
        rcases List.mem_cons.mp ha' with rfl | ha'
        · exact hrest.2.2.1
        · exact hrest.2.2.2 a' ha'
    · rw [if_neg (not_lt.mpr hge)] at h
      have hrest := ih _ out (fun a' ha' => hchk a' (List.mem_cons_of_mem a ha')) h
      refine ⟨hrest.1, ?_, hrest.2.2.1, ?_⟩
      · rcases hrest.2.1 with heq | ⟨a', ha', hsc, hbl⟩
        · exact Or.inl heq
        · exact Or.inr ⟨a', List.mem_cons_of_mem a ha', hsc, hbl⟩
      · intro a' ha'
        rcases List.mem_cons.mp ha' with rfl | ha'
        · exact le_trans hge hrest.2.2.1
        · exact hrest.2.2.2 a' ha'

/-- The enumerated combinations are exactly the spec's valid assignments:
position 0 pinned to the target, later positions holding in-range,
type-matching, non-target objects, all distinct. -/
theorem mem_multi_combinations (target : ℕ) (xsig msig : SceneSig)
    (hms : msig ≠ []) (a : List ℕ) :
    a ∈ multi_combinations (possibles target xsig msig) ↔
      validAssign target xsig msig a := by
  have hmpos : 1 ≤ msig.length := List.length_pos.mpr hms
  have hlen : (possibles target xsig msig).length = msig.length := by
    unfold possibles
    simp only [List.length_cons, List.length_map, List.length_range']
    omega
  unfold multi_combinations
  rw [List.mem_filter, List.mem_sections, List.forall₂_iff_get, decide_eq_true_eq]
  unfold validAssign
  constructor
  · rintro ⟨⟨hl, hget⟩, hnd⟩
    rw [hlen] at hl
    refine ⟨hl, ?_, ?_, hnd⟩
    · have h0 : 0 < a.length := by omega
      have hmem := hget 0 h0 (by rw [hlen]; omega)
      rw [List.get_eq_getElem, List.get_eq_getElem] at hmem
      simp only [possibles, List.getElem_cons_zero] at hmem
      rw [getD_eq_getElem' a 0 0 h0]
      exact List.mem_singleton.mp hmem
    · intro i hi h1i
      have hia : i < a.length := by omega
      have hmem := hget i hia (by rw [hlen]; omega)
      rw [List.get_eq_getElem, List.get_eq_getElem] at hmem
      obtain ⟨k, rfl⟩ : ∃ k, i = k + 1 := ⟨i - 1, by omega⟩
      simp only [possibles, List.getElem_cons_succ, List.getElem_map,
        List.getElem_range'] at hmem
      rw [List.mem_filter, decide_eq_true_eq,
        show (1 + 1 * k : ℕ) = k + 1 from by omega] at hmem
      rw [getD_eq_getElem' a (k + 1) 0 hia]
      exact ⟨List.mem_range.mp hmem.1, hmem.2.1, hmem.2.2⟩
  · rintro ⟨hl, h0, hcond, hnd⟩
    refine ⟨⟨by rw [hlen, hl], ?_⟩, hnd⟩
    intro i h₁ h₂
    rw [List.get_eq_getElem, List.get_eq_getElem]
    cases i with
    | zero =>
      simp only [possibles, List.getElem_cons_zero]
      rw [← getD_eq_getElem' a 0 0 h₁, h0]
      exact List.mem_singleton.mpr rfl
    | succ k =>
      simp only [possibles, List.getElem_cons_succ, List.getElem_map,
        List.getElem_range']
      have hk : k + 1 < msig.length := by
        rw [← hl]
        exact h₁
      have hcc := hcond (k + 1) hk (by omega)
      rw [getD_eq_getElem' a (k + 1) 0 h₁] at hcc
      refine List.mem_filter.mpr ⟨List.mem_range.mpr hcc.1, ?_⟩
      rw [decide_eq_true_eq, show (1 + 1 * k : ℕ) = k + 1 from by omega]
      exact ⟨hcc.2.1, hcc.2.2⟩

/-- Claim C4: `calc_prob` returns `PNOISE` on the noise mode regardless of
its arguments; on a fitted mode with empty signature (and, per the in-code
assertion, no coefficients) it returns `(1-EPSILON)` times the Gaussian
density of `y` around the constant intercept with variance `MEASURE_VAR`,
skipping enumeration; and on a fitted mode with non-empty signature, when
it returns at all (every enumerated combination passing the block-width
assertion), the returned probability is attained by some injective
type-compatible assignment and dominates them all — the maximum over the
spec's assignments. -/
theorem claim_C4 (g : ℚ → ℚ → ℚ → ℚ) (m : ModeInfo) (target : ℕ)
    (xsig : SceneSig) (x : List ℚ) (y : ℚ) :
    (m.noise = true → calc_prob g m target xsig x y = some (PNOISE, none, none)) ∧
    (m.noise = false → m.sig = [] → m.lin_coefs = [] →
      calc_prob g m target xsig x y =
        some ((1 - EPSILON) * g y m.lin_inter MEASURE_VAR,
          some [], some (y - m.lin_inter))) ∧
    (m.noise = false → m.sig ≠ [] →
      (∀ a ∈ multi_combinations (possibles target xsig m.sig),
        checkSizes m.sig xsig a = true) →
      ∀ p asg err, calc_prob g m target xsig x y = some (p, asg, err) →
        (∃ a, validAssign target xsig m.sig a ∧
          p = assignScore g xsig m.lin_coefs m.lin_inter x y a) ∧
        (∀ a, validAssign target xsig m.sig a →
          assignScore g xsig m.lin_coefs m.lin_inter x y a ≤ p)) := by
  refine ⟨?_, ?_, ?_⟩
  · intro hn
    unfold calc_prob
    rw [if_pos hn]
  · intro hn hsig hcoefs
    unfold calc_prob
    rw [if_neg (by rw [hn]; exact Bool.false_ne_true), hsig, hcoefs]
    rfl
  · intro hn hsig hchk p asg err h
    unfold calc_prob at h
    rw [if_neg (by rw [hn]; exact Bool.false_ne_true),
      if_neg (by rw [List.isEmpty_iff]; exact hsig)] at h
    cases hloop : scoreLoop g m.sig xsig m.lin_coefs m.lin_inter x y
        (multi_combinations (possibles target xsig m.sig)) (-1, [], 0) with
    | none => rw [hloop] at h; cases h
    | some out =>
      rw [hloop] at h
      dsimp only at h
      have hout := scoreLoop_spec g m.sig xsig m.lin_coefs m.lin_inter x y
        _ _ out hchk hloop
      have hpe : p = out.1 := by cases h; rfl
      constructor
      · rcases hout.2.1 with heq | ⟨a, ha, hsc, _⟩
        · exfalso
          have h1 : out.1 = (-1 : ℚ) := by rw [heq]
          have h2 := hout.1
          rw [h1] at h2
          norm_num at h2
        · exact ⟨a, (mem_multi_combinations target xsig m.sig hsig a).mp ha,
            by rw [hpe]; exact hsc⟩
      · intro a ha
        rw [hpe]
        exact hout.2.2.2 a ((mem_multi_combinations target xsig m.sig hsig a).mpr ha)

/-- Witness for claim C4 at the constant mode `exM1` (empty signature). -/
theorem claim_C4_witness :
    exM1.noise = false ∧ exM1.sig = [] ∧ exM1.lin_coefs = [] ∧
    calc_prob gpdf0 exM1 0 exSigA [5] 3 =
      some ((1 - EPSILON) * gpdf0 3 exM1.lin_inter MEASURE_VAR,
        some [], some (3 - exM1.lin_inter)) :=
  ⟨by decide, by decide, by decide,
    (claim_C4 gpdf0 exM1 0 exSigA [5] 3).2.1 (by decide) (by decide) (by decide)⟩

/-! ## Claim C5: the unification decision -/

/-- Exhausting the unification loop without a uniform, 90%-retaining mode
falls through to `none`. -/
theorem unifyLoop_none (lr : List (List ℚ × ℚ) → List ℚ × ℚ)
    (fl : List ℕ → List ℕ) (s : EMState) (seed : List ℕ) :
    ∀ js : List ℕ, (∀ j ∈ js, ¬ unifyOk fl s seed j) →
      unifyLoop lr fl s seed (seedSigOf s seed) (seedTgtOf s seed) js = none := by
  intro js
  induction js with
  | nil => intro _; rfl
  | cons j js ih =>
    intro hnone
    simp only [unifyLoop]
    split
    · exact ih (fun k hk => hnone k (List.mem_cons_of_mem j hk))
    · rename_i huni
      have h1 : uniform_sig s.data (s.modes.getD j dMode) (seedSigOf s seed)
          (seedTgtOf s seed) = true := not_not.mp huni
      split
      · rename_i hret
        exact absurd (⟨h1, hret⟩ : unifyOk fl s seed j)
          (hnone j (List.mem_cons_self j js))
      · exact ih (fun k hk => hnone k (List.mem_cons_of_mem j hk))

/-- When some listed mode passes both unification tests, the loop refits
one such mode in place over the padded index vector `u` and stops. -/
theorem unifyLoop_some (lr : List (List ℚ × ℚ) → List ℚ × ℚ)
    (fl : List ℕ → List ℕ) (s : EMState) (seed : List ℕ) :
    ∀ js : List ℕ, (∃ j ∈ js, unifyOk fl s seed j) →
      ∃ j ∈ js, unifyOk fl s seed j ∧
        unifyLoop lr fl s seed (seedSigOf s seed) (seedTgtOf s seed) js =
          some { s with
              modes := updList s.modes j
                (fun m => init_fit lr s.data s.sigs m (paddedU fl s seed j)) } := by
  intro js
  induction js with
  | nil =>
    rintro ⟨j, hj, _⟩
    cases hj
  | cons j js ih =>
    intro hex
    by_cases hj : unifyOk fl s seed j
    · refine ⟨j, List.mem_cons_self j js, hj, ?_⟩
      simp only [unifyLoop]
      have h1 : uniform_sig s.data (s.modes.getD j dMode) (seedSigOf s seed)
          (seedTgtOf s seed) = true := hj.1
      rw [if_neg (not_not_intro h1)]
      split
      · rfl
      · rename_i hret
        exact (hret hj.2).elim
    · obtain ⟨j0, hj0mem, hj0⟩ := hex
      have hex' : ∃ k ∈ js, unifyOk fl s seed k := by
        rcases List.mem_cons.mp hj0mem with rfl | hmem
        · exact absurd hj0 hj
        · exact ⟨j0, hmem, hj0⟩
      obtain ⟨j', hj'mem, hj'ok, hj'eq⟩ := ih hex'
      refine ⟨j', List.mem_cons_of_mem j hj'mem, hj'ok, ?_⟩
      simp only [unifyLoop]
      by_cases huni : uniform_sig s.data (s.modes.getD j dMode) (seedSigOf s seed)
          (seedTgtOf s seed) = true
      · rw [if_neg (not_not_intro huni)]
        split
        · rename_i hret
          exact absurd (⟨huni, hret⟩ : unifyOk fl s seed j) hj
        · exact hj'eq
      · rw [if_pos huni]
        exact hj'eq

/-- Claim C5, amended: once the decision stage of `unify_or_add_mode` runs,
it unifies with an existing mode exactly when some existing mode passes the
uniform-signature and 90%-retention tests; that mode is refit in place over
the PADDED index vector `u` (the discovered subset mapped through the
combined list, then zero-filled up to the combined size — not the subset
alone, see the counterexample).  Otherwise it registers exactly one new
mode, appends one `0.0` entry to every observation's `mode_prob` (leaving
`prob_stale` untouched) and resizes every existing mode's classifier vector
to the new mode count with NULL fill.  Both branches report a change. -/
theorem claim_C5_amended (lr : List (List ℚ × ℚ) → List ℚ × ℚ)
    (fl : List ℕ → List ℕ) (s : EMState) (seed : List ℕ) :
    ((∃ j ∈ List.range' 1 (s.nmodes - 1), unifyOk fl s seed j) →
      ∃ j ∈ List.range' 1 (s.nmodes - 1), unifyOk fl s seed j ∧
        (unify_or_add_mode lr fl s seed).1 =
          { s with check_after := NEW_MODE_THRESH,
                   modes := updList s.modes j
                     (fun m => init_fit lr s.data s.sigs m (paddedU fl s seed j)) } ∧
        (unify_or_add_mode lr fl s seed).2 = true) ∧
    ((∀ j ∈ List.range' 1 (s.nmodes - 1), ¬ unifyOk fl s seed j) →
      (unify_or_add_mode lr fl s seed).2 = true ∧
      (unify_or_add_mode lr fl s seed).1.nmodes = s.nmodes + 1 ∧
      (unify_or_add_mode lr fl s seed).1.data.length = s.data.length ∧
      (∀ i, i < s.data.length →
        (dataOf (unify_or_add_mode lr fl s seed).1 i).mode_prob =
          (dataOf s i).mode_prob ++ [0] ∧
        (dataOf (unify_or_add_mode lr fl s seed).1 i).prob_stale =
          (dataOf s i).prob_stale) ∧
      (unify_or_add_mode lr fl s seed).1.modes.length = s.modes.length + 1 ∧
      (∀ k, k < s.modes.length →
        (modeOf (unify_or_add_mode lr fl s seed).1 k).classifiers =
          resizeList (modeOf s k).classifiers (s.nmodes + 1) none)) := by
  constructor
  · intro hex
    have hex1 : ∃ j ∈ List.range' 1 (s.nmodes - 1),
        unifyOk fl { s with check_after := NEW_MODE_THRESH } seed j := hex
    obtain ⟨j', hj'mem, hj'ok, hj'eq⟩ :=
      unifyLoop_some lr fl { s with check_after := NEW_MODE_THRESH } seed
        (List.range' 1 (s.nmodes - 1)) hex1
    have hmain : unify_or_add_mode lr fl s seed =
        ({ s with
            check_after := NEW_MODE_THRESH,
            modes := updList s.modes j'
              (fun m => init_fit lr s.data s.sigs m (paddedU fl s seed j')) }, true) := by
      unfold unify_or_add_mode
      dsimp only
      rw [show unifyLoop lr fl { s with check_after := NEW_MODE_THRESH } seed
          (s.data.getD (seed.getD 0 0) dData).sig_index
          (s.data.getD (seed.getD 0 0) dData).target
          (List.range' 1 (s.nmodes - 1)) =
          some { s with
              check_after := NEW_MODE_THRESH,
              modes := updList s.modes j'
                (fun m => init_fit lr s.data s.sigs m (paddedU fl s seed j')) }
        from hj'eq]
    exact ⟨j', hj'mem, hj'ok, by rw [hmain], by rw [hmain]⟩
  · intro hnone
    have hnone1 : ∀ j ∈ List.range' 1 (s.nmodes - 1),
        ¬ unifyOk fl { s with check_after := NEW_MODE_THRESH } seed j := hnone
    have hU := unifyLoop_none lr fl { s with check_after := NEW_MODE_THRESH } seed
      (List.range' 1 (s.nmodes - 1)) hnone1
    have hmain : unify_or_add_mode lr fl s seed =
        (register_new_mode lr { s with check_after := NEW_MODE_THRESH } seed, true) := by
      unfold unify_or_add_mode
      dsimp only
      rw [show unifyLoop lr fl { s with check_after := NEW_MODE_THRESH } seed
          (s.data.getD (seed.getD 0 0) dData).sig_index
          (s.data.getD (seed.getD 0 0) dData).target
          (List.range' 1 (s.nmodes - 1)) = none from hU]
    rw [hmain]
    refine ⟨rfl, rfl, ?_, ?_, ?_, ?_⟩
    · show (s.data.map (fun d =>
        ({ d with mode_prob := d.mode_prob ++ [0] } : EmData))).length = s.data.length
      exact List.length_map _ _
    · intro i hi
      constructor
      · show ((s.data.map (fun d =>
          ({ d with mode_prob := d.mode_prob ++ [0] } : EmData))).getD i dData).mode_prob = _
        rw [getD_map_lt s.data _ i dData dData hi]
        rfl
      · show ((s.data.map (fun d =>
          ({ d with mode_prob := d.mode_prob ++ [0] } : EmData))).getD i dData).prob_stale = _
        rw [getD_map_lt s.data _ i dData dData hi]
        rfl
    · show ((s.modes ++ [init_fit lr s.data s.sigs freshMode seed]).map (fun m =>
        ({ m with classifiers := resizeList m.classifiers (s.nmodes + 1) none }
          : ModeInfo))).length = s.modes.length + 1
      simp
    · intro k hk
      show (((s.modes ++ [init_fit lr s.data s.sigs freshMode seed]).map (fun m =>
        ({ m with classifiers := resizeList m.classifiers (s.nmodes + 1) none }
          : ModeInfo))).getD k dMode).classifiers = _
      rw [getD_map_lt _ _ k dMode dMode (by simp; omega),
        getD_append_lt s.modes _ k dMode hk]
      rfl

/-- Linear-subset discovery stand-in returning the first 9 row positions. -/
def fl9 : List ℕ → List ℕ := fun _ => List.range 9

/-- A 10-observation state whose fitted mode has no members, so its
combined list is exactly the seed; `fl9` then retains 9 of 10 rows, which
passes the 90% test with a strict subset. -/
def exS5 : EMState :=
  { initEM with
      data := List.replicate 10 exD0,
      ndata := 10, nmodes := 2,
      sigs := [{ sig := exSigA, members := List.range 10,
                 lwr := List.replicate 10 ([5], 3) }],
      modes := [{ noiseMode with classifiers := [none, none] },
                { freshMode with
                    stale := false, new_fit := false,
                    classifiers := [none, none] }] }

/-- The candidate seed subset for the counterexample. -/
def seed5 : List ℕ := [0, 1, 2, 3, 4, 5, 6, 7, 8, 9]

/-- An observation with a different target object. -/
def exD1 : EmData := { exD0 with target := 1 }

/-- A state whose fitted mode owns an observation with target 1, failing
the uniform-signature test against a target-0 seed. -/
def exS5b : EMState :=
  { exS2 with
      data := [exD0, exD1], ndata := 2,
      modes := [{ noiseMode with members := {0}, classifiers := [none, none] },
                { exM1 with members := {1} }] }

/-- The fitted mode of `exS5` has no members, so its combined list is the
seed itself.  (`Finset.sort` is opaque to kernel evaluation, so the empty
sort is discharged by the library lemma.) -/
theorem exS5_sort : combinedOf exS5 1 seed5 = seed5 := by
  unfold combinedOf
  rw [show (modeOf exS5 1).members = ∅ from rfl, Finset.sort_empty]
  rfl

/-- The fitted mode of `exS5` accepts unification with `seed5`. -/
theorem exS5_unifyOk : unifyOk fl9 exS5 seed5 1 := by
  constructor
  · unfold uniform_sig
    rw [show (modeOf exS5 1).members = ∅ from rfl, Finset.sort_empty]
    rfl
  · rw [exS5_sort, show seed5.length = 10 from rfl,
      show (fl9 seed5).length = 9 from rfl]
    norm_num

/-- The padded refit vector of the counterexample: nine subset rows plus
one zero filler. -/
theorem exS5_padded : paddedU fl9 exS5 seed5 1 = [0, 1, 2, 3, 4, 5, 6, 7, 8, 0] := by
  unfold paddedU
  rw [exS5_sort]
  rfl

/-- The subset-only refit vector the claim describes. -/
theorem exS5_subsetU :
    (fl9 (combinedOf exS5 1 seed5)).map (fun k => (combinedOf exS5 1 seed5).getD k 0) =
      [0, 1, 2, 3, 4, 5, 6, 7, 8] := by
  rw [exS5_sort]
  rfl

/-- Claim C5 is false as stated: when unification is accepted at 90%
retention with a strict subset, the mode is NOT refit over the discovered
subset of the union — the source allocates `u` at the combined size and
fills only the first `subset.size()` entries, so the refit happens over the
subset PADDED with zeros (spurious copies of observation index 0).  At
`exS5` the subset keeps rows 0–8 of the 10-row union; refitting over the
padded vector feeds 10 rows to regression, refitting over the subset alone
feeds 9, and with the row-counting regression oracle `lr0` the resulting
mode tables differ. -/
theorem claim_C5_counterexample :
    ¬ (∀ (lr : List (List ℚ × ℚ) → List ℚ × ℚ) (fl : List ℕ → List ℕ)
         (s : EMState) (seed : List ℕ) (j : ℕ),
        1 ≤ j → j < s.nmodes → unifyOk fl s seed j →
        (∀ k, 1 ≤ k → k < s.nmodes → unifyOk fl s seed k → k = j) →
        (unify_or_add_mode lr fl s seed).1.modes =
          updList s.modes j (fun m => init_fit lr s.data s.sigs m
            ((fl (combinedOf s j seed)).map
              (fun k => (combinedOf s j seed).getD k 0)))) := by
  intro h
  have hinst := h lr0 fl9 exS5 seed5 1 (by omega) (by decide) exS5_unifyOk
    (fun k h1 h2 _ => by
      have hn : exS5.nmodes = 2 := rfl
      omega)
  have hex1 : ∃ j ∈ List.range' 1 (exS5.nmodes - 1),
      unifyOk fl9 { exS5 with check_after := NEW_MODE_THRESH } seed5 j :=
    ⟨1, by decide, exS5_unifyOk⟩
  obtain ⟨j', hj'mem, hj'ok, hj'eq⟩ :=
    unifyLoop_some lr0 fl9 { exS5 with check_after := NEW_MODE_THRESH } seed5
      (List.range' 1 (exS5.nmodes - 1)) hex1
  have hj'1 : j' = 1 := by
    rw [List.mem_range'] at hj'mem
    obtain ⟨i, hi, rfl⟩ := hj'mem
    have hn : exS5.nmodes = 2 := rfl
    rw [hn] at hi
    omega
  subst hj'1
  have hmain : unify_or_add_mode lr0 fl9 exS5 seed5 =
      ({ exS5 with
          check_after := NEW_MODE_THRESH,
          modes := updList exS5.modes 1
            (fun m => init_fit lr0 exS5.data exS5.sigs m (paddedU fl9 exS5 seed5 1)) },
        true) := by
    unfold unify_or_add_mode
    dsimp only
    rw [show unifyLoop lr0 fl9 { exS5 with check_after := NEW_MODE_THRESH } seed5
        (exS5.data.getD (seed5.getD 0 0) dData).sig_index
        (exS5.data.getD (seed5.getD 0 0) dData).target
        (List.range' 1 (exS5.nmodes - 1)) =
        some { exS5 with
            check_after := NEW_MODE_THRESH,
            modes := updList exS5.modes 1
              (fun m => init_fit lr0 exS5.data exS5.sigs m (paddedU fl9 exS5 seed5 1)) }
      from hj'eq]
  have hLHS : (unify_or_add_mode lr0 fl9 exS5 seed5).1.modes =
      updList exS5.modes 1
        (fun m => init_fit lr0 exS5.data exS5.sigs m (paddedU fl9 exS5 seed5 1)) := by
    rw [hmain]
  rw [exS5_padded] at hLHS
  rw [exS5_subsetU] at hinst
  have hcontra := hLHS.symm.trans hinst
  revert hcontra
  decide

/-- No mode of `exS5b` unifies with the seed `[0]`: its only fitted mode
owns observation 1, whose target differs from the seed's. -/
theorem exS5b_not_unifyOk :
    ∀ j ∈ List.range' 1 (exS5b.nmodes - 1), ¬ unifyOk fl9 exS5b [0] j := by
  intro j hj
  have hj1 : j = 1 := by
    rw [List.mem_range'] at hj
    obtain ⟨i, hi, rfl⟩ := hj
    have hn : exS5b.nmodes = 2 := rfl
    rw [hn] at hi
    omega
  subst hj1
  intro hok
  have huni := hok.1
  unfold uniform_sig at huni
  rw [show (modeOf exS5b 1).members = {1} from rfl, Finset.sort_singleton] at huni
  revert huni
  decide

/-- Witness for the amended claim C5: a state whose fitted mode fails the
uniform-signature test (its member's target differs from the seed's), so a
new mode is registered. -/
theorem claim_C5_witness :
    (∀ j ∈ List.range' 1 (exS5b.nmodes - 1), ¬ unifyOk fl9 exS5b [0] j) ∧
    (unify_or_add_mode lr0 fl9 exS5b [0]).2 = true ∧
    (unify_or_add_mode lr0 fl9 exS5b [0]).1.nmodes = exS5b.nmodes + 1 :=
  ⟨exS5b_not_unifyOk,
    ((claim_C5_amended lr0 fl9 exS5b [0]).2 exS5b_not_unifyOk).1,
    ((claim_C5_amended lr0 fl9 exS5b [0]).2 exS5b_not_unifyOk).2.1⟩

/-! ## Claim C10: the empty-enumeration assertion in calc_prob -/

theorem no_mem_sections_of_mem_nil {α : Type} :
    ∀ (L : List (List α)) (a : List α), [] ∈ L → a ∈ L.sections → False := by
  intro L
  induction L with
  | nil => intro a h _; cases h
  | cons l L ih =>
    intro a h ha
    have h2 := List.mem_sections.mp ha
    cases h2 with
    | cons hx hrest =>
      rcases List.mem_cons.mp h with he | he
      · rw [← he] at hx
        cases hx
      · exact ih _ he (List.mem_sections.mpr hrest)

theorem calc_prob_none_of_empty_slot (g : ℚ → ℚ → ℚ → ℚ) (m : ModeInfo)
    (tgt : ℕ) (xsig : SceneSig) (x : List ℚ) (y : ℚ)
    (hn : m.noise = false) (hs : m.sig.isEmpty = false)
    (he : ∃ i, i < (possibles tgt xsig m.sig).length ∧ 1 ≤ i ∧
      (possibles tgt xsig m.sig).getD i [] = []) :
    calc_prob g m tgt xsig x y = none := by
  obtain ⟨i, hi, _, hie⟩ := he
  have hmem : ([] : List ℕ) ∈ possibles tgt xsig m.sig := by
    rw [← hie]
    exact getD_mem_of_lt _ _ _ hi
  have hsec : (possibles tgt xsig m.sig).sections = [] := by
    rw [List.eq_nil_iff_forall_not_mem]
    intro a ha
    exact no_mem_sections_of_mem_nil _ a hmem ha
  unfold calc_prob
  rw [hn, hs]
  simp only [Bool.false_eq_true, if_false, multi_combinations, hsec,
    List.filter_nil, scoreLoop]
  norm_num

/-- Claim C10: when a fitted mode's signature demands an object type the
scene cannot supply (some non-target candidate slot is empty), the
assignment enumeration of `calc_prob` is empty, `best_prob` stays at -1.0
and the final `assert(best_prob >= 0.0)` fails; such calls are reachable
through the public paths — `estep` (which recomputes every dirty
observation/mode pair with no type-compatibility pre-check, here at the
concrete state `exS10`) and `best_mode` (which scores every mode on the
given input). -/
theorem claim_C10 :
    (∀ (g : ℚ → ℚ → ℚ → ℚ) (m : ModeInfo) (tgt : ℕ) (xsig : SceneSig)
       (x : List ℚ) (y : ℚ), m.noise = false → m.sig.isEmpty = false →
       (∃ i, i < (possibles tgt xsig m.sig).length ∧ 1 ≤ i ∧
         (possibles tgt xsig m.sig).getD i [] = []) →
       calc_prob g m tgt xsig x y = none) ∧
    estep gpdf0 exS10 = none ∧
    best_mode gpdf0 exS10 0 exSigA [5] 3 = none :=
  ⟨fun g m tgt xsig x y hn hs he =>
    calc_prob_none_of_empty_slot g m tgt xsig x y hn hs he,
   by decide, by decide⟩

/-- Witness for claim C10: the assertion-failure lemma applied to the
concrete incompatible mode `exM2` and scene `exSigA`. -/
theorem claim_C10_witness :
    calc_prob gpdf0 exM2 0 exSigA [5] 3 = none :=
  claim_C10.1 gpdf0 exM2 0 exSigA [5] 3 (by decide) (by decide) (by decide)

/-! ## Claim C7: predict failure, refuted on the no-data branch -/

/-- Claim C7, amended: `predict` returns false exactly when nothing has
been learned, or classification selects the noise mode and no fallback LWR
prediction is available — but the output `y` is set to NaN only in the
second case; the early no-data return leaves `y` untouched.  In every other
case it returns true, with the winning mode's model output, or with the
signature bucket's LWR output when the noise mode wins. -/
theorem claim_C7_amended (cls : EMState → ℕ → SceneSig → RelTbl → List ℚ → ℕ × List ℕ)
    (lwrp : List (List ℚ × ℚ) → List ℚ → Option ℚ)
    (s : EMState) (tgt : ℕ) (sig : SceneSig) (rels : RelTbl) (x : List ℚ) :
    ((predict cls lwrp s tgt sig rels x).1 = false ↔
      (s.ndata = 0 ∨ ((cls s tgt sig rels x).1 = 0 ∧ lwrFallbackFails lwrp s sig x))) ∧
    ((predict cls lwrp s tgt sig rels x).2.2 = YOut.nanSet ↔
      (s.ndata ≠ 0 ∧ (cls s tgt sig rels x).1 = 0 ∧ lwrFallbackFails lwrp s sig x)) ∧
    (s.ndata = 0 → predict cls lwrp s tgt sig rels x = (false, 0, YOut.untouched)) ∧
    (s.ndata ≠ 0 → (cls s tgt sig rels x).1 ≠ 0 →
      predict cls lwrp s tgt sig rels x =
        (true, (cls s tgt sig rels x).1,
         YOut.val (modePredict (modeOf s (cls s tgt sig rels x).1) sig x
           (cls s tgt sig rels x).2))) ∧
    (s.ndata ≠ 0 → (cls s tgt sig rels x).1 = 0 → ¬ lwrFallbackFails lwrp s sig x →
      ∃ i v, findSigIdx s.sigs sig = some i ∧
        lwrp (s.sigs.getD i dSig).lwr x = some v ∧
        predict cls lwrp s tgt sig rels x = (true, 0, YOut.val v)) := by
  by_cases hnd : s.ndata = 0
  · refine ⟨?_, ?_, ?_, ?_, ?_⟩ <;> simp [predict, hnd]
  · by_cases hcls : (cls s tgt sig rels x).1 = 0
    · cases hfs : findSigIdx s.sigs sig with
      | none =>
        have hff : lwrFallbackFails lwrp s sig x := by
          unfold lwrFallbackFails
          rw [hfs]
          trivial
        refine ⟨?_, ?_, ?_, ?_, ?_⟩ <;>
          simp [predict, hnd, hcls, hfs, hff, modeOf]
      | some i =>
        cases hlw : lwrp (s.sigs.getD i dSig).lwr x with
        | none =>
          have hff : lwrFallbackFails lwrp s sig x := by
            unfold lwrFallbackFails
            rw [hfs]
            exact hlw
          rw [List.getD_eq_getElem?_getD] at hlw
          refine ⟨?_, ?_, ?_, ?_, ?_⟩ <;>
            simp [predict, hnd, hcls, hfs, hlw, hff, modeOf]
        | some v =>
          rw [List.getD_eq_getElem?_getD] at hlw
          have hff : ¬ lwrFallbackFails lwrp s sig x := by
            unfold lwrFallbackFails
            rw [hfs]
            simp [hlw, List.getD_eq_getElem?_getD]
          refine ⟨?_, ?_, ?_, ?_, ?_⟩ <;>
            simp [predict, hnd, hcls, hfs, hlw, hff, modeOf,
              List.getD_eq_getElem?_getD]
    · refine ⟨?_, ?_, ?_, ?_, ?_⟩ <;> simp [predict, hnd, hcls, modeOf]

/-- Witness for the amended claim C7 at `exS2` with the all-noise
classifier and the always-declining LWR stand-ins. -/
theorem claim_C7_witness :
    ((predict cls0 lwrp0 exS2 0 exSigA [] [5]).1 = false ↔
      (exS2.ndata = 0 ∨ ((cls0 exS2 0 exSigA [] [5]).1 = 0 ∧
        lwrFallbackFails lwrp0 exS2 exSigA [5]))) ∧
    ((predict cls0 lwrp0 exS2 0 exSigA [] [5]).2.2 = YOut.nanSet ↔
      (exS2.ndata ≠ 0 ∧ (cls0 exS2 0 exSigA [] [5]).1 = 0 ∧
        lwrFallbackFails lwrp0 exS2 exSigA [5])) ∧
    (exS2.ndata = 0 → predict cls0 lwrp0 exS2 0 exSigA [] [5] = (false, 0, YOut.untouched)) ∧
    (exS2.ndata ≠ 0 → (cls0 exS2 0 exSigA [] [5]).1 ≠ 0 →
      predict cls0 lwrp0 exS2 0 exSigA [] [5] =
        (true, (cls0 exS2 0 exSigA [] [5]).1,
         YOut.val (modePredict (modeOf exS2 (cls0 exS2 0 exSigA [] [5]).1) exSigA [5]
           (cls0 exS2 0 exSigA [] [5]).2))) ∧
    (exS2.ndata ≠ 0 → (cls0 exS2 0 exSigA [] [5]).1 = 0 →
      ¬ lwrFallbackFails lwrp0 exS2 exSigA [5] →
      ∃ i v, findSigIdx exS2.sigs exSigA = some i ∧
        lwrp0 (exS2.sigs.getD i dSig).lwr [5] = some v ∧
        predict cls0 lwrp0 exS2 0 exSigA [] [5] = (true, 0, YOut.val v)) :=
  claim_C7_amended cls0 lwrp0 exS2 0 exSigA [] [5]

/-- Claim C7 is false as stated: when nothing has been learned, `predict`
returns `false` after setting only the mode out-parameter — the output `y`
is NOT set to NaN (the early return at line 807-810 skips the `y(0) = NAN`
assignment, which only the noise-without-fallback branch executes). -/
theorem claim_C7_counterexample :
    ¬ (∀ (cls : EMState → ℕ → SceneSig → RelTbl → List ℚ → ℕ × List ℕ)
         (lwrp : List (List ℚ × ℚ) → List ℚ → Option ℚ)
         (s : EMState) (tgt : ℕ) (sig : SceneSig) (rels : RelTbl) (x : List ℚ),
        (((predict cls lwrp s tgt sig rels x).1 = false ∧
          (predict cls lwrp s tgt sig rels x).2.2 = YOut.nanSet) ↔
         (s.ndata = 0 ∨
          ((cls s tgt sig rels x).1 = 0 ∧ lwrFallbackFails lwrp s sig x)))) := by
  intro h
  have h2 := h cls0 lwrp0 initEM 0 [] [] []
  revert h2
  decide

end SoarEM
